import Mathlib

/-! Script.cpp: the script loader of the TinyJS host

A shallow embedding of `block_s`, `block_append`, `block_clear` and
`eval_script` of `Script.cpp`, followed by theorems about them.

Conventions of the embedding.

* A C string is the list of its characters before the terminating NUL.
* A byte of heap storage is an `Option Char`: `none` is a byte that has not
  been written since the storage was obtained from `malloc` or `realloc`
  (its value is indeterminate), `some c` is a byte holding `c`.
* `size_t` quantities of the buffer (`capacity`, `size`, `last_cap`) are
  natural numbers: they are bounded by the amount of allocated storage, and
  allocation is taken to succeed.  The depth counter `braces` is decremented
  below zero by the source, so it is kept modulo `2 ^ 64`.
* The script engine is a parameter: a predicate telling, from the calls made
  so far and the present argument, whether `js->execute` raises.
-/

namespace Script

/-- The NUL character that terminates a C string. -/
def NUL : Char := Char.ofNat 0

/-- The constant `readBufSz` of the source. -/
def readBufSz : Nat := 2048

/-! ## The block buffer -/

/-- The struct `block_s`.  The pointer `data` is modelled by the storage it
points to, a list of `capacity` bytes; the null pointer is the empty list. -/
structure block_s where
  last_cap : Nat := 0
  capacity : Nat := 0
  size : Nat := 0
  data : List (Option Char) := []
  deriving DecidableEq, Repr

/-- The loop `while(block->capacity < (block->size+length)) block->capacity+=block->capacity+1;`
run for at most `fuel` rounds; `need` is `block->size+length`. -/
def growLoop : Nat → Nat → Nat → Nat
  | 0, capacity, _ => capacity
  | fuel + 1, capacity, need =>
    if capacity < need then growLoop fuel (capacity + (capacity + 1)) need else capacity

/-- The capacity after the growth loop of `block_append`.  The capacity
increases by at least one per round, so `need` rounds are enough
(see `grow_unfold`). -/
def grow (capacity need : Nat) : Nat := growLoop need capacity need

/-- The call `malloc(capacity)`: fresh storage, every byte indeterminate. -/
def malloc (capacity : Nat) : List (Option Char) := List.replicate capacity none

/-- The call `realloc(data, capacity)`: the old bytes are kept, the new ones
are indeterminate. -/
def realloc (data : List (Option Char)) (capacity : Nat) : List (Option Char) :=
  data.take capacity ++ List.replicate (capacity - data.length) none

/-- The call `memcpy(&data[offset], string, length)`. -/
def memcpy (data : List (Option Char)) (offset : Nat) (string : List Char) : List (Option Char) :=
  data.take offset ++ string.map some ++ data.drop (offset + string.length)

/-- The call `memset(data, 0, n)`. -/
def memset (data : List (Option Char)) (n : Nat) : List (Option Char) :=
  List.replicate (min n data.length) (some NUL) ++ data.drop n

/-- The capacity that `block_append` reaches before it copies: `length + 1`
is allocated when the capacity is zero, then the growth loop runs. -/
def append_capacity (block : block_s) (length : Nat) : Nat :=
  grow (if block.capacity = 0 then length + 1 else block.capacity) (block.size + length)

/-- The test `block->last_cap < block->capacity` that guards the call of
`realloc` in `block_append`. -/
def append_reallocs (block : block_s) (string : List Char) : Bool :=
  decide (block.capacity < append_capacity block string.length)

/-- The body of `block_append` for non-null arguments. -/
def block_append_body (block : block_s) (string : List Char) : block_s :=
  let length := string.length
  let last_cap := block.capacity
  let data0 := if block.capacity = 0 then malloc (length + 1) else block.data
  let capacity := append_capacity block length
  let data1 := if last_cap < capacity then realloc data0 capacity else data0
  let data2 := if block.size ≠ 0 then memcpy data1 (block.size - 1) string
               else memcpy data1 0 string
  { last_cap := last_cap, capacity := capacity, size := block.size + length, data := data2 }

/-- The function `block_append(struct block_s* block, char* string)`; a null
pointer is `none`.  The result is the struct after the call. -/
def block_append (block : Option block_s) (string : Option (List Char)) : Option block_s :=
  match block, string with
  | some b, some s => some (block_append_body b s)
  | b, _ => b

/-- The function `block_clear`. -/
def block_clear (block : block_s) : block_s :=
  { block with data := memset block.data block.size, size := 0 }

/-- The bytes of the buffer that are live: the first `size` bytes of `data`. -/
def block_s.live (block : block_s) : List (Option Char) := block.data.take block.size

/-- A buffer operation: an append of a C string or a clear. -/
inductive BlockOp where
  | append (string : List Char)
  | clear
  deriving DecidableEq, Repr

/-- One buffer operation applied to a buffer. -/
def BlockOp.apply (block : block_s) : BlockOp → block_s
  | .append s => block_append_body block s
  | .clear => block_clear block

/-- A sequence of buffer operations applied, in order, to a buffer. -/
def run_ops (block : block_s) (ops : List BlockOp) : block_s :=
  ops.foldl BlockOp.apply block

/-- A sequence of appends applied, in order, to a buffer. -/
def append_all (block : block_s) (strings : List (List Char)) : block_s :=
  strings.foldl block_append_body block

/-- The number of calls, in a sequence of appends, in which `realloc` is called. -/
def realloc_count : block_s → List (List Char) → Nat
  | _, [] => 0
  | block, s :: rest =>
    (if append_reallocs block s then 1 else 0) + realloc_count (block_append_body block s) rest

/-- The total length of a sequence of strings. -/
def total_length (strings : List (List Char)) : Nat := (strings.map List.length).sum


/-! ## Lines, markers and the script engine -/

/-- The call `strstr(haystack, needle)`: the offset of the first occurrence
of `needle` in `haystack`, or `none` for the null pointer. -/
def strstr : List Char → List Char → Option Nat
  | [], needle => if needle = [] then some 0 else none
  | c :: rest, needle =>
    if needle.isPrefixOf (c :: rest) then some 0
    else (strstr rest needle).map (fun i => i + 1)

/-- The characters that one call of `fgets` takes from the stream when it may
store at most `n` of them: up to and including the first newline. The result
is the characters taken and the rest of the stream. -/
def fgets_chars : Nat → List Char → List Char × List Char
  | 0, stream => ([], stream)
  | _ + 1, [] => ([], [])
  | n + 1, c :: rest =>
    if c = '\n' then ([c], rest)
    else (c :: (fgets_chars n rest).1, (fgets_chars n rest).2)

/-- The C string that is in an array holding `chars` followed by NUL. -/
def c_str (chars : List Char) : List Char := chars.takeWhile (fun c => c ≠ NUL)

/-- The call `fgets(buffer, size, script)`: `none` is the null pointer, returned at
end of file when no character was read (the array is then left as it was);
otherwise the C string now in the array and the rest of the stream. -/
def fgets (size : Nat) (stream : List Char) : Option (List Char × List Char) :=
  match stream with
  | [] => none
  | _ :: _ => some (c_str (fgets_chars (size - 1) stream).1, (fgets_chars (size - 1) stream).2)

/-- The argument of one call of `js->execute`: the line buffer
(`js->execute(buffer)`) or the storage of the block buffer
(`js->execute(block.data)`), as it is at the call. -/
inductive Arg where
  | line (buffer : List Char)
  | block (data : List (Option Char))
  deriving DecidableEq, Repr

/-- The script engine: `js calls arg` is true when `js->execute(arg)`, made
after the calls `calls`, raises a `CScriptException`. -/
abbrev Executor := List Arg → Arg → Bool

/-- The characters of block storage up to the first NUL, the first
indeterminate byte, or the end of the storage. -/
def block_text : List (Option Char) → List Char
  | [] => []
  | none :: _ => []
  | some c :: rest => if c = NUL then [] else c :: block_text rest

/-- Whether block storage holds a terminated C string: a NUL comes before
any indeterminate byte and before the end of the storage. -/
def block_terminated : List (Option Char) → Bool
  | [] => false
  | none :: _ => false
  | some c :: rest => if c = NUL then true else block_terminated rest

/-- The text of an argument of `js->execute`. -/
def Arg.text : Arg → List Char
  | .line buffer => buffer
  | .block data => block_text data

/-! ## The state of `eval_script` -/

/-- The local variables of `eval_script` that are read after they are set,
the unread part of the file, and the calls of `js->execute` made so far. -/
structure Env where
  script : List Char
  buffer : List Char := []
  block : block_s := {}
  block_comment : Bool := false
  braces : Nat := 0
  line : Nat := 0
  calls : List Arg := []
  deriving DecidableEq, Repr

/-- How a run of `eval_script` stands when it is observed. -/
inductive Outcome where
  /-- The function `fopen` failed: the exception leaves `eval_script`. -/
  | open_failed
  /-- The dispatch loop ended at end of file. -/
  | eof
  /-- The overlong-line exception was thrown and caught. -/
  | overlong (line : Nat)
  /-- A call of `js->execute` raised, and the exception was caught. -/
  | raised
  /-- The run has not ended within the given number of loop rounds. -/
  | running
  deriving DecidableEq, Repr

/-- A run that has left the dispatch loop (or is cut off), with its state. -/
structure Stop where
  outcome : Outcome
  env : Env
  deriving DecidableEq, Repr

/-- The byte `buffer[i]` of the line array, for `i` up to the length of the
C string in it: the byte at the length is the terminator. -/
def char_at (buffer : List Char) (i : Nat) : Char := buffer.getD i NUL

/-- The test `strlen(buffer)==(readBufSz-1) && buffer[readBufSz-1]!='\0'`. -/
def overlong_check (buffer : List Char) : Bool :=
  buffer.length == readBufSz - 1 && char_at buffer (readBufSz - 1) != NUL

/-- The comment filter of the dispatch loop (the `if`/`else if` on the two
comment markers). -/
def comment_filter (e : Env) : Env :=
  match strstr e.buffer "/**".toList with
  | some comment_start =>
    if !e.block_comment then
      { e with buffer := e.buffer.take comment_start, block_comment := true }
    else if (strstr e.buffer "*/".toList).isSome && e.block_comment then
      { e with block_comment := false, buffer := [] }
    else e
  | none =>
    if (strstr e.buffer "*/".toList).isSome && e.block_comment then
      { e with block_comment := false, buffer := [] }
    else e

/-- The `for` loop over the characters of the line inside an accumulation
loop: the counter after the line and the line with its line breaks blanked.
The counter is a `size_t`: it wraps modulo `2 ^ 64`. -/
def scan (opener closer : Char) : List Char → Nat → Nat × List Char
  | [], braces => (braces, [])
  | c :: rest, braces =>
    let b1 := if c = opener then (braces + 1) % 2 ^ 64 else braces
    let b2 := if c = closer then (b1 + (2 ^ 64 - 1)) % 2 ^ 64 else b1
    let c1 := if c = '\n' ∨ c = '\r' then ' ' else c
    ((scan opener closer rest b2).1, c1 :: (scan opener closer rest b2).2)

/-- The call `fgets(buffer,readBufSz,script)` whose result is not looked at. -/
def read_ahead (e : Env) : Env :=
  match fgets readBufSz e.script with
  | none => e
  | some (buffer, rest) => { e with buffer := buffer, script := rest }

/-- One call `js->execute(arg)`: the call is recorded; if the engine raises,
the exception is caught by the handler of `eval_script`. -/
def execute (js : Executor) (arg : Arg) (e : Env) : Except Stop Env :=
  if js e.calls arg then .error ⟨.raised, { e with calls := e.calls ++ [arg] }⟩
  else .ok { e with calls := e.calls ++ [arg] }

/-- The loop `do { ... } while(braces);` of a block check, for at most `fuel` rounds. -/
def accumulate (opener closer : Char) : Nat → Env → Except Stop Env
  | 0, e => .error ⟨.running, e⟩
  | fuel + 1, e =>
    let r := scan opener closer e.buffer e.braces
    let e1 := read_ahead { e with braces := r.1, buffer := r.2,
                                  block := block_append_body e.block r.2 }
    if r.1 ≠ 0 then accumulate opener closer fuel e1 else .ok e1

/-- The condition `strstr(buffer,"{")!=NULL && strstr(buffer,"}")==NULL` of a
block check (and the same with brackets). -/
def opens_block (opener closer : Char) (buffer : List Char) : Bool :=
  (strstr buffer [opener]).isSome && (strstr buffer [closer]).isNone

/-- One block check of the dispatch loop: the brace check for `{` and `}`, the
bracket check for `[` and `]`. -/
def block_check (js : Executor) (opener closer : Char) (fuel : Nat) (e : Env) :
    Except Stop Env :=
  if opens_block opener closer e.buffer then
    match accumulate opener closer fuel e with
    | .error s => .error s
    | .ok e1 =>
      match execute js (.block e1.block.data) e1 with
      | .error s => .error s
      | .ok e2 => .ok { e2 with block := block_clear e2.block, buffer := [] }
  else .ok e

/-- The last statement of the loop body: `if(!block_comment) { js->execute(buffer); }`. -/
def dispatch (js : Executor) (e : Env) : Except Stop Env :=
  if !e.block_comment then execute js (.line e.buffer) e else .ok e

/-- The body of the dispatch loop, for the line that `fgets` has just put in `buffer`. -/
def loop_body (js : Executor) (fuel : Nat) (e : Env) : Except Stop Env :=
  let e0 := { e with line := e.line + 1 }
  if overlong_check e0.buffer then .error ⟨.overlong e0.line, e0⟩
  else
    match block_check js '{' '}' fuel (comment_filter e0) with
    | .error s => .error s
    | .ok e1 =>
      match block_check js '[' ']' fuel e1 with
      | .error s => .error s
      | .ok e2 => dispatch js e2

/-- The loop `while(fgets(buffer,readBufSz,script)!=NULL)` inside the `try`, for
at most `fuel` rounds (the loops inside a round get the rounds that are left). -/
def dispatch_loop (js : Executor) : Nat → Env → Stop
  | 0, e => ⟨.running, e⟩
  | fuel + 1, e =>
    match fgets readBufSz e.script with
    | none => ⟨.eof, e⟩
    | some (buffer, rest) =>
      match loop_body js fuel { e with buffer := buffer, script := rest } with
      | .error s => s
      | .ok e1 => dispatch_loop js fuel e1

/-- The function `eval_script(js, filename)`; `file` is the content of the file,
`none` when it cannot be opened. -/
def eval_script (js : Executor) (fuel : Nat) (file : Option (List Char)) : Stop :=
  match file with
  | none => ⟨.open_failed, { script := [] }⟩
  | some script => dispatch_loop js fuel { script := script }

/-- The run of `eval_script` on a file with the given content. -/
def run (js : Executor) (fuel : Nat) (script : String) : Stop :=
  eval_script js fuel (some script.toList)

/-- The arguments of the calls of `js->execute` made by a run, in order. -/
def forwarded (js : Executor) (fuel : Nat) (script : String) : List Arg :=
  (run js fuel script).env.calls

/-- What the checks of the loop body ensure for an argument of `js->execute`:
a line buffer reaches the last statement only if neither block check fires on it. -/
def Arg.passes_checks : Arg → Prop
  | .line buffer => opens_block '{' '}' buffer = false ∧ opens_block '[' ']' buffer = false
  | .block _ => True

/-- Structural completeness as the specification words it, for one kind of
token and a text read from depth `depth`: every closing token matches an
earlier opening token, and no opening token is left unclosed at the end. -/
def balanced_from (opener closer : Char) : List Char → Nat → Bool
  | [], depth => depth == 0
  | c :: rest, depth =>
    if c = opener then balanced_from opener closer rest (depth + 1)
    else if c = closer then depth != 0 && balanced_from opener closer rest (depth - 1)
    else balanced_from opener closer rest depth

/-- Structural completeness of a unit as the specification words it: its
braces and its brackets are balanced. -/
def structurally_complete (text : List Char) : Bool :=
  balanced_from '{' '}' text 0 && balanced_from '[' ']' text 0

/-- The buffer that the specification compares a cleared buffer with: a buffer
just made, empty, that has storage of the given capacity, none of it written. -/
def fresh_block (capacity : Nat) : block_s :=
  { last_cap := 0, capacity := capacity, size := 0, data := malloc capacity }

/-- The part of a line that comes before the first occurrence of a marker: the
line is read from the left until the marker starts the rest of it. -/
def truncate_at (marker : List Char) : List Char → List Char
  | [] => []
  | c :: rest => if marker <+: (c :: rest) then [] else c :: truncate_at marker rest

/-- The comment-filter step as the specification words it, on a line and the
comment-mode flag: (1) a line that contains the start marker, with the flag off,
is truncated at the first occurrence of the marker and the flag is set;
(2) otherwise a line that contains the end marker, with the flag on, is made
empty and the flag is cleared; (3) otherwise nothing changes. -/
def comment_filter_spec (line : List Char) (flag : Bool) : List Char × Bool :=
  if "/**".toList <:+: line ∧ flag = false then (truncate_at "/**".toList line, true)
  else if "*/".toList <:+: line ∧ flag = true then ([], false)
  else (line, flag)

/-- The states in which the dispatch loop of `eval_script` stands at the start of
an iteration (where `fgets` is called in the condition of the `while`): the
state at entry of the loop, and the state after any loop body that ended
without an exception. -/
inductive AtLoopHead (js : Executor) (script : List Char) : Env → Prop where
  | start : AtLoopHead js script { script := script }
  | next (fuel : Nat) (e : Env) (buffer rest : List Char) (e1 : Env) :
      AtLoopHead js script e → fgets readBufSz e.script = some (buffer, rest) →
      loop_body js fuel { e with buffer := buffer, script := rest } = .ok e1 →
      AtLoopHead js script e1

/-- The strings of a sequence written one after the other. -/
def concat_all : List (List Char) → List Char
  | [] => []
  | s :: rest => s ++ concat_all rest

/-- The storage of the buffer holds the characters `content` and after them only
bytes that were never written. -/
def HoldsThenUnwritten (block : block_s) (content : List Char) : Prop :=
  content.length ≤ block.capacity ∧
  block.data = content.map some ++ List.replicate (block.capacity - content.length) none

/-- A line with its line breaks blanked, as the `for` loop of an accumulation
loop leaves it. -/
def blank (line : List Char) : List Char :=
  line.map (fun c => if c = '\n' ∨ c = '\r' then ' ' else c)

/-- The line buffers that the rounds of an accumulation loop scan and append, in
order, as they are before their line breaks are blanked: one line per round of
`accumulate`, for at most `fuel` rounds. -/
def accumulated (opener closer : Char) : Nat → Env → List (List Char)
  | 0, _ => []
  | fuel + 1, e =>
    let r := scan opener closer e.buffer e.braces
    let e1 := read_ahead { e with braces := r.1, buffer := r.2,
                                  block := block_append_body e.block r.2 }
    e.buffer :: (if r.1 ≠ 0 then accumulated opener closer fuel e1 else [])

/-- What the block checks ensure for block storage passed to `js->execute`: it is
the storage of a buffer of size 0 after `block_append` of the lines of one
accumulation, blanked; the first of these lines is one on which the brace check
(or the bracket check) fires; and over these lines the closing tokens of that
kind are as many as the opening ones, counted modulo `2 ^ 64`. -/
def FlushedBlock (data : List (Option Char)) : Prop :=
  ∃ (opener closer : Char) (first : List Char) (more : List (List Char)) (block : block_s),
    ((opener = '{' ∧ closer = '}') ∨ (opener = '[' ∧ closer = ']')) ∧
    opens_block opener closer first = true ∧
    block.size = 0 ∧
    data = (append_all block ((first :: more).map blank)).data ∧
    (concat_all (first :: more)).count opener % 2 ^ 64 =
      (concat_all (first :: more)).count closer % 2 ^ 64

/-- What the checks of the loop body ensure for an argument of `js->execute`,
line buffer or block storage. -/
def Arg.checked : Arg → Prop
  | .line buffer => opens_block '{' '}' buffer = false ∧ opens_block '[' ']' buffer = false
  | .block data => FlushedBlock data

/-- An engine that never raises. -/
def accepts_all : Executor := fun _ _ => false

end Script

namespace Script

/-! ## The growth loop -/

theorem growLoop_ge_need (fuel capacity need : Nat) (h : need ≤ fuel + capacity) :
    need ≤ growLoop fuel capacity need := by
  induction fuel generalizing capacity with
  | zero => simpa [growLoop] using h
  | succ n ih =>
    unfold growLoop
    split
    · exact ih _ (by omega)
    · omega

theorem growLoop_ge_start (fuel capacity need : Nat) :
    capacity ≤ growLoop fuel capacity need := by
  induction fuel generalizing capacity with
  | zero => simp [growLoop]
  | succ n ih =>
    unfold growLoop
    split
    · exact le_trans (by omega) (ih (capacity + (capacity + 1)))
    · exact le_refl _

theorem growLoop_fuel (fuel1 fuel2 capacity need : Nat)
    (h1 : need ≤ fuel1 + capacity) (h2 : need ≤ fuel2 + capacity) :
    growLoop fuel1 capacity need = growLoop fuel2 capacity need := by
  induction fuel1 generalizing fuel2 capacity with
  | zero =>
    cases fuel2 with
    | zero => rfl
    | succ m =>
      have : ¬ capacity < need := by omega
      simp [growLoop, this]
  | succ n ih =>
    cases fuel2 with
    | zero =>
      have : ¬ capacity < need := by omega
      simp [growLoop, this]
    | succ m =>
      unfold growLoop
      split
      · exact ih m _ (by omega) (by omega)
      · rfl

/-- The function `grow` satisfies the equation of the `while` loop it stands for. -/
theorem grow_unfold (capacity need : Nat) :
    grow capacity need =
      if capacity < need then grow (capacity + (capacity + 1)) need else capacity := by
  unfold grow
  cases need with
  | zero => simp [growLoop]
  | succ n =>
    rw [growLoop]
    split
    · exact growLoop_fuel _ _ _ _ (by omega) (by omega)
    · rfl

theorem grow_ge_need (capacity need : Nat) : need ≤ grow capacity need :=
  growLoop_ge_need need capacity need (by omega)

theorem grow_ge_start (capacity need : Nat) : capacity ≤ grow capacity need :=
  growLoop_ge_start need capacity need

theorem grow_of_not_lt (capacity need : Nat) (h : ¬ capacity < need) :
    grow capacity need = capacity := by
  rw [grow_unfold, if_neg h]

theorem grow_of_lt (capacity need : Nat) (h : capacity < need) :
    capacity + (capacity + 1) ≤ grow capacity need := by
  rw [grow_unfold, if_pos h]
  exact grow_ge_start _ _

theorem growLoop_iterate (fuel capacity need : Nat) :
    ∃ k, growLoop fuel capacity need = (fun c => 2 * c + 1)^[k] capacity := by
  induction fuel generalizing capacity with
  | zero => exact ⟨0, rfl⟩
  | succ n ih =>
    unfold growLoop
    split
    · obtain ⟨k, hk⟩ := ih (capacity + (capacity + 1))
      refine ⟨k + 1, ?_⟩
      rw [hk, Function.iterate_succ_apply]
      congr 1
      omega
    · exact ⟨0, rfl⟩

/-! ## Size and capacity of the buffer -/

@[simp] theorem block_append_body_size (block : block_s) (string : List Char) :
    (block_append_body block string).size = block.size + string.length := rfl

@[simp] theorem block_append_body_capacity (block : block_s) (string : List Char) :
    (block_append_body block string).capacity = append_capacity block string.length := rfl

@[simp] theorem block_clear_size (block : block_s) : (block_clear block).size = 0 := rfl

@[simp] theorem block_clear_capacity (block : block_s) :
    (block_clear block).capacity = block.capacity := rfl

theorem append_capacity_ge (block : block_s) (length : Nat) :
    block.size + length ≤ append_capacity block length :=
  grow_ge_need _ _

theorem run_ops_size_le (ops : List BlockOp) (block : block_s)
    (h : block.size ≤ block.capacity) :
    (run_ops block ops).size ≤ (run_ops block ops).capacity := by
  induction ops generalizing block with
  | nil => exact h
  | cons op rest ih =>
    simp only [run_ops, List.foldl_cons] at ih ⊢
    apply ih
    cases op with
    | append s => exact append_capacity_ge block s.length
    | clear => simp [BlockOp.apply]

theorem append_all_size (strings : List (List Char)) (block : block_s) :
    (append_all block strings).size = block.size + total_length strings := by
  induction strings generalizing block with
  | nil => simp [append_all, total_length]
  | cons s rest ih =>
    simp only [append_all, List.foldl_cons, total_length, List.map_cons, List.sum_cons] at ih ⊢
    rw [ih]
    simp [Nat.add_assoc]

theorem append_all_size_le (strings : List (List Char)) (block : block_s)
    (h : block.size ≤ block.capacity) :
    (append_all block strings).size ≤ (append_all block strings).capacity := by
  induction strings generalizing block with
  | nil => exact h
  | cons s rest ih =>
    simp only [append_all, List.foldl_cons] at ih ⊢
    exact ih _ (append_capacity_ge block s.length)

/-! ## The storage of the buffer -/

theorem realloc_length (data : List (Option Char)) (capacity : Nat) :
    (realloc data capacity).length = capacity := by
  simp only [realloc, List.length_append, List.length_take, List.length_replicate]
  omega

theorem memcpy_length (data : List (Option Char)) (offset : Nat) (string : List Char)
    (h : offset + string.length ≤ data.length) :
    (memcpy data offset string).length = data.length := by
  simp only [memcpy, List.length_append, List.length_take, List.length_map, List.length_drop]
  omega

theorem memset_length (data : List (Option Char)) (n : Nat) :
    (memset data n).length = data.length := by
  simp only [memset, List.length_append, List.length_replicate, List.length_drop]
  omega

/-- The copy of `block_append` stays inside the storage: a buffer whose storage
has `capacity` bytes and whose `size` is within it keeps storage of `capacity`
bytes. -/
theorem block_append_body_data_length (block : block_s) (string : List Char)
    (hd : block.data.length = block.capacity) (hs : block.size ≤ block.capacity) :
    (block_append_body block string).data.length = (block_append_body block string).capacity := by
  have hneed := append_capacity_ge block string.length
  have hlen : (if block.capacity < append_capacity block string.length then
      realloc (if block.capacity = 0 then malloc (string.length + 1) else block.data)
        (append_capacity block string.length)
      else (if block.capacity = 0 then malloc (string.length + 1) else block.data)).length =
      append_capacity block string.length := by
    split
    · exact realloc_length _ _
    · rename_i hnot
      have hstart : (if block.capacity = 0 then string.length + 1 else block.capacity) ≤
          append_capacity block string.length := grow_ge_start _ _
      by_cases hc : block.capacity = 0
      · simp only [hc, if_true] at hstart
        omega
      · simp only [hc, if_false] at hstart ⊢
        omega
  simp only [block_append_body]
  split
  · rw [memcpy_length _ _ _ (by rw [hlen]; omega), hlen]
  · rw [memcpy_length _ _ _ (by rw [hlen]; omega), hlen]

theorem run_ops_data_length (ops : List BlockOp) (block : block_s)
    (hd : block.data.length = block.capacity) (hs : block.size ≤ block.capacity) :
    (run_ops block ops).data.length = (run_ops block ops).capacity := by
  induction ops generalizing block with
  | nil => exact hd
  | cons op rest ih =>
    simp only [run_ops, List.foldl_cons] at ih ⊢
    cases op with
    | append s =>
      exact ih _ (block_append_body_data_length block s hd hs) (append_capacity_ge block s.length)
    | clear =>
      exact ih _ (by simp [BlockOp.apply, block_clear, memset_length, hd])
        (by simp [BlockOp.apply])

/-! ## The steps of `eval_script` -/

theorem overlong_check_false (buffer : List Char) : overlong_check buffer = false := by
  unfold overlong_check char_at
  by_cases h : buffer.length = readBufSz - 1
  · have : buffer.getD (readBufSz - 1) NUL = NUL := List.getD_eq_default _ _ (by omega)
    rw [this]
    simp
  · simp [h]

theorem execute_ok {js : Executor} {arg : Arg} {e e1 : Env} (h : execute js arg e = .ok e1) :
    e1 = { e with calls := e.calls ++ [arg] } ∧ js e.calls arg = false := by
  unfold execute at h
  split at h
  · cases h
  · rename_i hjs
    injection h with h
    exact ⟨h.symm, by simpa using hjs⟩

theorem execute_error {js : Executor} {arg : Arg} {e : Env} {s : Stop}
    (h : execute js arg e = .error s) :
    s = ⟨.raised, { e with calls := e.calls ++ [arg] }⟩ ∧ js e.calls arg = true := by
  unfold execute at h
  split at h
  · rename_i hjs
    injection h with h
    exact ⟨h.symm, hjs⟩
  · cases h

@[simp] theorem read_ahead_calls (e : Env) : (read_ahead e).calls = e.calls := by
  unfold read_ahead; split <;> rfl

@[simp] theorem read_ahead_braces (e : Env) : (read_ahead e).braces = e.braces := by
  unfold read_ahead; split <;> rfl

@[simp] theorem read_ahead_block (e : Env) : (read_ahead e).block = e.block := by
  unfold read_ahead; split <;> rfl

@[simp] theorem read_ahead_block_comment (e : Env) :
    (read_ahead e).block_comment = e.block_comment := by
  unfold read_ahead; split <;> rfl

theorem accumulate_ok {opener closer : Char} {fuel : Nat} {e e1 : Env}
    (h : accumulate opener closer fuel e = .ok e1) :
    e1.calls = e.calls ∧ e1.braces = 0 ∧ e1.block_comment = e.block_comment := by
  induction fuel generalizing e with
  | zero => simp [accumulate] at h
  | succ n ih =>
    unfold accumulate at h
    simp only at h
    split at h
    · have := ih h
      simpa using this
    · rename_i hz
      injection h with h
      subst h
      simpa using hz

theorem accumulate_error {opener closer : Char} {fuel : Nat} {e : Env} {s : Stop}
    (h : accumulate opener closer fuel e = .error s) :
    s.outcome = .running ∧ s.env.calls = e.calls := by
  induction fuel generalizing e with
  | zero =>
    simp only [accumulate] at h
    injection h with h
    subst h
    exact ⟨rfl, rfl⟩
  | succ n ih =>
    unfold accumulate at h
    simp only at h
    split at h
    · have := ih h
      simpa using this
    · cases h

theorem opens_block_nil (opener closer : Char) : opens_block opener closer [] = false := by
  simp [opens_block, strstr]

theorem block_check_ok_buffer {js : Executor} {opener closer : Char} {fuel : Nat} {e e1 : Env}
    (h : block_check js opener closer fuel e = .ok e1) :
    e1.buffer = [] ∨ (e1 = e ∧ opens_block opener closer e.buffer = false) := by
  unfold block_check at h
  split at h
  · left
    split at h
    · cases h
    · split at h
      · cases h
      · injection h with h
        subst h
        rfl
  · rename_i hno
    right
    injection h with h
    exact ⟨h.symm, by simpa using hno⟩

/-! ## An induction principle on the calls of a run -/

/-- The hypotheses of the induction principle: `Inv` is kept by every call that
returns, and `Fin` holds of a run that stops with calls satisfying `Inv`, or
with a raising call after such calls. Only arguments that pass the checks of
the loop body are ever passed. -/
structure TraceInv (js : Executor) (Inv : List Arg → Prop)
    (Fin : Outcome → List Arg → Prop) : Prop where
  ok : ∀ calls arg, Inv calls → arg.passes_checks → js calls arg = false → Inv (calls ++ [arg])
  raise : ∀ calls arg, Inv calls → arg.passes_checks → js calls arg = true →
    Fin .raised (calls ++ [arg])
  stop : ∀ calls o, Inv calls → o ≠ .raised → Fin o calls

/-- The conclusion of a step: `Inv` after a step that goes on, `Fin` after one
that leaves the loop. -/
def Post (Inv : List Arg → Prop) (Fin : Outcome → List Arg → Prop) :
    Except Stop Env → Prop
  | .ok e => Inv e.calls
  | .error s => Fin s.outcome s.env.calls

theorem execute_post {js : Executor} {Inv : List Arg → Prop} {Fin : Outcome → List Arg → Prop}
    (T : TraceInv js Inv Fin) (arg : Arg) (e : Env) (h : Inv e.calls) (ha : arg.passes_checks) :
    Post Inv Fin (execute js arg e) := by
  unfold execute
  split
  · rename_i hjs
    exact T.raise _ _ h ha hjs
  · rename_i hjs
    exact T.ok _ _ h ha (by simpa using hjs)

theorem block_check_post {js : Executor} {Inv : List Arg → Prop}
    {Fin : Outcome → List Arg → Prop} (T : TraceInv js Inv Fin) (opener closer : Char)
    (fuel : Nat) (e : Env) (h : Inv e.calls) :
    Post Inv Fin (block_check js opener closer fuel e) := by
  unfold block_check
  split
  · split
    · rename_i s hs
      obtain ⟨h1, h2⟩ := accumulate_error hs
      show Fin s.outcome s.env.calls
      rw [h1, h2]
      exact T.stop _ _ h (by simp)
    · rename_i e1 he1
      have hc := (accumulate_ok he1).1
      have hp := execute_post T (.block e1.block.data) e1 (by rw [hc]; exact h) trivial
      split
      · rename_i s hs
        rw [hs] at hp
        exact hp
      · rename_i e2 he2
        rw [he2] at hp
        exact hp
  · exact h

theorem loop_body_post {js : Executor} {Inv : List Arg → Prop}
    {Fin : Outcome → List Arg → Prop} (T : TraceInv js Inv Fin)
    (fuel : Nat) (e : Env) (h : Inv e.calls) :
    Post Inv Fin (loop_body js fuel e) := by
  unfold loop_body
  simp only [overlong_check_false, Bool.false_eq_true, if_false]
  have hf : Inv (comment_filter { e with line := e.line + 1 }).calls := by
    unfold comment_filter
    split <;> (try split) <;> (try split) <;> exact h
  have h1 := block_check_post T '{' '}' fuel _ hf
  split
  · rename_i s hs
    rw [hs] at h1
    exact h1
  · rename_i e1 he1
    rw [he1] at h1
    have hb1 := block_check_ok_buffer he1
    have h2 := block_check_post T '[' ']' fuel e1 h1
    split
    · rename_i s hs
      rw [hs] at h2
      exact h2
    · rename_i e2 he2
      rw [he2] at h2
      have hb2 := block_check_ok_buffer he2
      unfold dispatch
      split
      · apply execute_post T _ _ h2
        show opens_block '{' '}' e2.buffer = false ∧ opens_block '[' ']' e2.buffer = false
        rcases hb2 with hnil | ⟨heq, hno2⟩
        · rw [hnil]
          exact ⟨opens_block_nil _ _, opens_block_nil _ _⟩
        · subst heq
          refine ⟨?_, hno2⟩
          rcases hb1 with hnil | ⟨heq1, hno1⟩
          · rw [hnil]
            exact opens_block_nil _ _
          · rw [heq1]
            exact hno1
      · exact h2

theorem dispatch_loop_fin {js : Executor} {Inv : List Arg → Prop}
    {Fin : Outcome → List Arg → Prop} (T : TraceInv js Inv Fin)
    (fuel : Nat) (e : Env) (h : Inv e.calls) :
    Fin (dispatch_loop js fuel e).outcome (dispatch_loop js fuel e).env.calls := by
  induction fuel generalizing e with
  | zero => exact T.stop _ _ h (by simp [dispatch_loop])
  | succ n ih =>
    unfold dispatch_loop
    split
    · exact T.stop _ _ h (by simp)
    · rename_i buffer rest _
      have hp := loop_body_post T n { e with buffer := buffer, script := rest } h
      split
      · rename_i s hs
        rw [hs] at hp
        exact hp
      · rename_i e1 he1
        rw [he1] at hp
        exact ih e1 hp

/-- Induction on the calls of a run of `eval_script`. -/
theorem eval_script_fin {js : Executor} {Inv : List Arg → Prop}
    {Fin : Outcome → List Arg → Prop} (T : TraceInv js Inv Fin) (h0 : Inv [])
    (fuel : Nat) (file : Option (List Char)) :
    Fin (eval_script js fuel file).outcome (eval_script js fuel file).env.calls := by
  unfold eval_script
  split
  · exact T.stop _ _ h0 (by simp)
  · exact dispatch_loop_fin T fuel _ h0

/-! ## Calls that raise -/

/-- Every call of the list returned without raising. -/
def AllReturned (js : Executor) (calls : List Arg) : Prop :=
  ∀ pre arg post, calls = pre ++ arg :: post → js pre arg = false

theorem snoc_eq_append_cons {α : Type} {calls pre post : List α} {arg a : α}
    (h : calls ++ [arg] = pre ++ a :: post) :
    (post = [] ∧ pre = calls ∧ a = arg) ∨ ∃ post1, post = post1 ++ [arg] ∧ calls = pre ++ a :: post1 := by
  rcases List.eq_nil_or_concat post with hnil | ⟨post1, b, hb⟩
  · left
    subst hnil
    have h2 : calls ++ [arg] = pre ++ [a] := h
    have := List.append_inj_left' h2 rfl
    have h3 := List.append_inj_right' h2 rfl
    simp only [List.cons.injEq, and_true] at h3
    exact ⟨rfl, this.symm, h3.symm⟩
  · right
    subst hb
    have h2 : calls ++ [arg] = (pre ++ a :: post1) ++ [b] := by
      rw [h]; simp
    have h3 := List.append_inj_left' h2 rfl
    have h4 := List.append_inj_right' h2 rfl
    simp only [List.cons.injEq, and_true] at h4
    exact ⟨post1, by simp [h4], h3⟩

theorem raising_traceInv (js : Executor) :
    TraceInv js (AllReturned js) (fun o calls => ∀ pre arg post,
      calls = pre ++ arg :: post → js pre arg = true → post = [] ∧ o = .raised) where
  ok := by
    intro calls arg hinv _ hjs pre a post heq
    rcases snoc_eq_append_cons heq with ⟨_, hpre, ha⟩ | ⟨post1, _, hc⟩
    · rw [hpre, ha]; exact hjs
    · exact hinv pre a post1 hc
  raise := by
    intro calls arg hinv _ _ pre a post heq hraise
    rcases snoc_eq_append_cons heq with ⟨hpost, _, _⟩ | ⟨post1, _, hc⟩
    · exact ⟨hpost, rfl⟩
    · have := hinv pre a post1 hc
      rw [this] at hraise
      cases hraise
  stop := by
    intro calls o hinv _ pre a post heq hraise
    have := hinv pre a post heq
    rw [this] at hraise
    cases hraise

/-! ## The overlong-line exception -/

theorem block_check_error_outcome {js : Executor} {opener closer : Char} {fuel : Nat}
    {e : Env} {s : Stop} (h : block_check js opener closer fuel e = .error s) :
    s.outcome = .running ∨ s.outcome = .raised := by
  unfold block_check at h
  split at h
  · split at h
    · rename_i s1 hs
      injection h with h
      subst h
      exact Or.inl (accumulate_error hs).1
    · split at h
      · rename_i s1 hs
        injection h with h
        subst h
        right
        rw [(execute_error hs).1]
      · cases h
  · cases h

theorem loop_body_error_outcome {js : Executor} {fuel : Nat} {e : Env} {s : Stop}
    (h : loop_body js fuel e = .error s) :
    s.outcome = .running ∨ s.outcome = .raised := by
  unfold loop_body at h
  simp only [overlong_check_false, Bool.false_eq_true, if_false] at h
  split at h
  · rename_i s1 hs
    injection h with h
    subst h
    exact block_check_error_outcome hs
  · split at h
    · rename_i s1 hs
      injection h with h
      subst h
      exact block_check_error_outcome hs
    · unfold dispatch at h
      split at h
      · right
        rw [(execute_error h).1]
      · cases h

theorem dispatch_loop_outcome (js : Executor) (fuel : Nat) (e : Env) (n : Nat) :
    (dispatch_loop js fuel e).outcome ≠ .overlong n := by
  induction fuel generalizing e with
  | zero => simp [dispatch_loop]
  | succ k ih =>
    unfold dispatch_loop
    split
    · simp
    · split
      · rename_i s hs
        rcases loop_body_error_outcome hs with h | h <;> rw [h] <;> simp
      · exact ih _

/-! ## Lines of one repeated letter -/

theorem fgets_chars_replicate (n : Nat) (rest : List Char) :
    fgets_chars n (List.replicate n 'a' ++ rest) = (List.replicate n 'a', rest) := by
  induction n with
  | zero => simp [fgets_chars]
  | succ k ih =>
    have hne : ('a' = '\n') = False := by decide
    have ih2 : fgets_chars k ((List.replicate k 'a').append rest) = (List.replicate k 'a', rest) := ih
    simp only [List.replicate_succ, List.cons_append, fgets_chars, hne, if_false, ih2]

theorem c_str_replicate (n : Nat) : c_str (List.replicate n 'a') = List.replicate n 'a' := by
  induction n with
  | zero => rfl
  | succ k ih =>
    have hne : 'a' ≠ NUL := by decide
    unfold c_str at ih ⊢
    simp only [List.replicate_succ, List.takeWhile_cons, hne, ne_eq, not_false_eq_true,
      decide_True, if_true, ih]

theorem strstr_replicate (n : Nat) (c : Char) (needle : List Char) (hc : (c == 'a') = false) :
    strstr (List.replicate n 'a') (c :: needle) = none := by
  induction n with
  | zero => simp [strstr]
  | succ k ih =>
    simp only [List.replicate_succ, strstr, List.isPrefixOf, hc, Bool.false_and,
      Bool.false_eq_true, if_false, ih, Option.map_none']

theorem fgets_cons (size : Nat) (c : Char) (stream : List Char) :
    fgets size (c :: stream) =
      some (c_str (fgets_chars (size - 1) (c :: stream)).1,
        (fgets_chars (size - 1) (c :: stream)).2) := rfl

theorem dispatch_loop_step (js : Executor) (fuel : Nat) (e : Env) (buffer rest : List Char)
    (e1 : Env) (hf : fgets readBufSz e.script = some (buffer, rest))
    (hb : loop_body js fuel { e with buffer := buffer, script := rest } = .ok e1) :
    dispatch_loop js (fuel + 1) e = dispatch_loop js fuel e1 := by
  rw [dispatch_loop, hf]
  simp only [hb]

theorem dispatch_loop_eof (js : Executor) (fuel : Nat) (e : Env)
    (hf : fgets readBufSz e.script = none) :
    dispatch_loop js (fuel + 1) e = ⟨.eof, e⟩ := by
  rw [dispatch_loop, hf]

/-- The loop body on a line that holds no comment marker and opens no block,
outside comment mode, with an engine that does not raise: the line is
forwarded as it is. -/
theorem loop_body_plain (fuel : Nat) (e : Env)
    (h1 : strstr e.buffer "/**".toList = none) (h2 : strstr e.buffer "*/".toList = none)
    (h3 : opens_block '{' '}' e.buffer = false) (h4 : opens_block '[' ']' e.buffer = false)
    (h5 : e.block_comment = false) :
    loop_body accepts_all fuel e =
      .ok { e with line := e.line + 1, calls := e.calls ++ [.line e.buffer] } := by
  rcases e with ⟨script, buffer, block, bc, braces, line, calls⟩
  simp only at h1 h2 h3 h4 h5
  subst h5
  simp only [loop_body, overlong_check_false, Bool.false_eq_true, if_false, comment_filter,
    h1, h2, Option.isSome_none, Bool.false_and, block_check, h3, h4, dispatch,
    Bool.not_false, if_true, execute, accepts_all]

/-! ## Counting the reallocations -/

/-- What holds of a buffer on which `count` calls of `block_append` have
called `realloc` since it was created empty. -/
def ReallocInv (block : block_s) (count : Nat) : Prop :=
  block.size ≤ block.capacity ∧ (count = 0 → block.capacity = 0) ∧
  (1 ≤ count → 2 ^ count ≤ block.capacity + 1) ∧ (2 ≤ count → 2 ^ (count - 1) ≤ block.size)

theorem reallocInv_step (block : block_s) (count : Nat) (s : List Char)
    (h : ReallocInv block count) :
    ReallocInv (block_append_body block s)
      (count + if append_reallocs block s then 1 else 0) := by
  obtain ⟨h1, h2, h3, h4⟩ := h
  have hneed := append_capacity_ge block s.length
  unfold ReallocInv
  simp only [block_append_body_size, block_append_body_capacity]
  by_cases hc : block.capacity = 0
  · -- first allocation
    have hcap : block.capacity < append_capacity block s.length := by
      have := grow_ge_start (s.length + 1) (block.size + s.length)
      simp only [append_capacity, hc, if_true] at this ⊢
      omega
    have hcount : count = 0 := by
      by_contra hne
      have := h3 (by omega)
      have : 2 ^ count ≥ 2 := by
        calc 2 ^ count ≥ 2 ^ 1 := Nat.pow_le_pow_right (by norm_num) (by omega)
          _ = 2 := by norm_num
      omega
    subst hcount
    simp only [append_reallocs, hcap, decide_True, if_true]
    refine ⟨hneed, by omega, fun _ => ?_, fun h => by omega⟩
    have := grow_ge_start (s.length + 1) (block.size + s.length)
    simp only [append_capacity, hc, if_true]
    norm_num
    omega
  · have hstart : append_capacity block s.length = grow block.capacity (block.size + s.length) := by
      simp [append_capacity, hc]
    have hpos : 1 ≤ count := by
      by_contra hne
      exact hc (h2 (by omega))
    have h3 := h3 hpos
    by_cases hlt : block.capacity < block.size + s.length
    · have hgrow := grow_of_lt _ _ hlt
      have hcap : block.capacity < append_capacity block s.length := by rw [hstart]; omega
      simp only [append_reallocs, hcap, decide_True, if_true]
      have hpow : 2 ^ (count + 1) = 2 * 2 ^ count := by rw [pow_succ]; ring
      refine ⟨hneed, by omega, fun _ => ?_, fun _ => ?_⟩
      · rw [hpow, hstart]; omega
      · simp only [Nat.add_sub_cancel]; omega
    · have heq : append_capacity block s.length = block.capacity := by
        rw [hstart]; exact grow_of_not_lt _ _ hlt
      have hcap : ¬ block.capacity < append_capacity block s.length := by rw [heq]; omega
      simp only [append_reallocs, hcap, decide_False, Bool.false_eq_true, if_false, Nat.add_zero]
      refine ⟨hneed, by omega, fun _ => ?_, fun h => ?_⟩
      · rw [heq]; exact h3
      · have := h4 h; omega

theorem reallocInv_all (strings : List (List Char)) (block : block_s) (count : Nat)
    (h : ReallocInv block count) :
    ReallocInv (append_all block strings) (count + realloc_count block strings) := by
  induction strings generalizing block count with
  | nil => simpa [append_all, realloc_count] using h
  | cons s rest ih =>
    simp only [append_all, List.foldl_cons, realloc_count] at ih ⊢
    rw [← Nat.add_assoc]
    exact ih _ _ (reallocInv_step block count s h)

theorem append_capacity_iterate (block : block_s) (length : Nat) :
    ∃ k, append_capacity block length =
      (fun c => 2 * c + 1)^[k] (if block.capacity = 0 then length + 1 else block.capacity) :=
  growLoop_iterate _ _ _

/-! ## Theorems on the buffer -/

/-- C8 (code as it is): after `"ab"` has been appended to an empty buffer, appending
`"cd"` copies at offset `size - 1`: the four live bytes are `a`, `c`, `d` and a
byte that was never written, not the old live bytes `ab` followed by `cd`. -/
theorem block_append_overwrites_last_byte :
    (block_append_body {} "ab".toList).live = [some 'a', some 'b'] ∧
    (block_append_body (block_append_body {} "ab".toList) "cd".toList).live =
      [some 'a', some 'c', some 'd', none] ∧
    (block_append_body (block_append_body {} "ab".toList) "cd".toList).live ≠
      (block_append_body {} "ab".toList).live ++ "cd".toList.map some := by
  decide

/-- C9: in every state reached from the empty buffer by appends and clears,
`size ≤ capacity`; after appends alone, `size` is the total length `L` of the
texts and `capacity ≥ L`. -/
theorem buffer_invariant (ops : List BlockOp) (strings : List (List Char)) :
    (run_ops {} ops).size ≤ (run_ops {} ops).capacity ∧
    (append_all {} strings).size = total_length strings ∧
    total_length strings ≤ (append_all {} strings).capacity := by
  refine ⟨run_ops_size_le ops {} (le_refl _), ?_, ?_⟩
  · simpa using append_all_size strings {}
  · have h1 := append_all_size_le strings {} (le_refl _)
    have h2 := append_all_size strings {}
    simp only [Nat.zero_add] at h2
    omega

/-- C10 (as stated, refuted): one append of a text of length 1 to the empty
buffer calls `realloc` once, which is more than `⌈log2 1⌉ = 0`. -/
theorem realloc_bound_fails_at_one :
    1 ≤ total_length ["a".toList] ∧
    ¬ realloc_count {} ["a".toList] ≤ Nat.clog 2 (total_length ["a".toList]) := by
  have h1 : total_length ["a".toList] = 1 := by decide
  have h2 : realloc_count {} ["a".toList] = 1 := by decide
  rw [h1, h2, Nat.clog_one_right]
  decide

/-- C10 (amended): every call of `block_append` leaves a capacity obtained from the
capacity before it (from `len(text) + 1` when that is zero) by repeating
`c ↦ 2 * c + 1`; and for appends of total length `L ≥ 1` to the empty buffer the
number of calls that call `realloc` is at most `⌊log2 L⌋ + 1`, so that all but the
call of the first allocation are at most `⌈log2 L⌉`. -/
theorem realloc_bound (strings : List (List Char)) (hL : 1 ≤ total_length strings) :
    (∀ (block : block_s) (s : List Char), ∃ k, (block_append_body block s).capacity =
        (fun c => 2 * c + 1)^[k] (if block.capacity = 0 then s.length + 1 else block.capacity)) ∧
    realloc_count {} strings ≤ Nat.log 2 (total_length strings) + 1 ∧
    realloc_count {} strings - 1 ≤ Nat.clog 2 (total_length strings) := by
  have hinv := reallocInv_all strings {} 0 ⟨le_refl _, fun _ => rfl, by simp, by simp⟩
  have hsize := append_all_size strings {}
  simp only [Nat.zero_add] at hinv hsize
  have hlog : realloc_count {} strings ≤ Nat.log 2 (total_length strings) + 1 := by
    by_cases h2 : 2 ≤ realloc_count {} strings
    · have := hinv.2.2.2 h2
      rw [hsize] at this
      have := (Nat.pow_le_iff_le_log (by norm_num) (by omega)).mp this
      omega
    · omega
  refine ⟨fun block s => append_capacity_iterate block s.length, hlog, ?_⟩
  have : Nat.log 2 (total_length strings) ≤ Nat.clog 2 (total_length strings) :=
    Nat.log_le_clog 2 _
  omega

/-- The bound of C10 at an input: three appends of total length 4. -/
theorem realloc_bound_witness :
    1 ≤ total_length ["a".toList, "bc".toList, "d".toList] ∧
    realloc_count {} ["a".toList, "bc".toList, "d".toList] ≤
      Nat.log 2 (total_length ["a".toList, "bc".toList, "d".toList]) + 1 :=
  ⟨by decide, (realloc_bound ["a".toList, "bc".toList, "d".toList] (by decide)).2.1⟩

/-! ## Theorems on `eval_script` -/

/-- C2 (code as it is): on the three lines `function myfunc(x, y) {`, `  return x + y;`,
`}` the storage passed to `js->execute` holds the first line without its last
character (the blanked line break), then the two other lines, then bytes that
were never written: its text is not the concatenation of the blanked lines, and
it is not terminated. -/
theorem block_unit_loses_character :
    (run accepts_all 5 "function myfunc(x, y) \x7b\n  return x + y;\n\x7d\n").outcome = .eof ∧
    forwarded accepts_all 5 "function myfunc(x, y) \x7b\n  return x + y;\n\x7d\n" =
      [Arg.block ("function myfunc(x, y) \x7b  return x + y; \x7d ".toList.map some ++
          List.replicate 10 none), Arg.line []] ∧
    block_text ("function myfunc(x, y) \x7b  return x + y; \x7d ".toList.map some ++
          List.replicate 10 none) ≠ "function myfunc(x, y) \x7b   return x + y; \x7d ".toList ∧
    block_terminated ("function myfunc(x, y) \x7b  return x + y; \x7d ".toList.map some ++
          List.replicate 10 none) = false := by
  decide

/-- C3 (code as it is): the line `var a = myfunc(1,2);` that follows the closing
line of the block is read by the `fgets` at the end of the accumulation loop and
then blanked: the run ends at end of file having forwarded the block and an empty
line, and no call holds the text `var a`. -/
theorem line_after_block_dropped :
    eval_script accepts_all 5
        (some "function myfunc(x, y) \x7b\n  return x + y;\n\x7d\nvar a = myfunc(1,2);\n".toList) =
      ⟨.eof, { script := [], buffer := [], line := 1,
               block := { last_cap := 51, capacity := 51, size := 0,
                          data := List.replicate 42 (some NUL) ++ List.replicate 9 none },
               calls := [Arg.block ("function myfunc(x, y) \x7b  return x + y; \x7d ".toList.map some ++
                 List.replicate 10 none), Arg.line []] }⟩ ∧
    ∀ arg ∈ forwarded accepts_all 5
        "function myfunc(x, y) \x7b\n  return x + y;\n\x7d\nvar a = myfunc(1,2);\n",
      strstr arg.text "var a".toList = none := by
  decide

/-- C4 (code as it is): in the script `/**`, ` * {`, ` * }`, ` */` the second and
third lines lie inside the block comment and hold no marker, yet the brace check
fires on the second one and their text is passed to `js->execute`. -/
theorem comment_lines_forwarded :
    (run accepts_all 5 "/**\n * \x7b\n * \x7d\n */\n").outcome = .eof ∧
    forwarded accepts_all 5 "/**\n * \x7b\n * \x7d\n */\n" =
      [Arg.block (" * \x7b * \x7d ".toList.map some ++ List.replicate 4 none)] ∧
    (comment_filter { script := [], buffer := " * \x7b\n".toList, block_comment := true }).buffer =
      " * \x7b\n".toList ∧
    (comment_filter { script := [], buffer := " * \x7b\n".toList, block_comment := true }).block_comment =
      true := by
  decide

/-- C6 (code as it is): the overlong-line test can never hold, so no run ends on the
overlong-line exception; the line of 2047 letters `a`, which fills the read
buffer without a line terminator, is passed to `js->execute`, and so is the
rest of the file. -/
theorem overlong_line_not_detected :
    (∀ buffer, overlong_check buffer = false) ∧
    (∀ js fuel file n, (eval_script js fuel file).outcome ≠ .overlong n) ∧
    (eval_script accepts_all 3 (some (List.replicate 2047 'a' ++ ['\n']))).outcome = .eof ∧
    (eval_script accepts_all 3 (some (List.replicate 2047 'a' ++ ['\n']))).env.calls =
      [Arg.line (List.replicate 2047 'a'), Arg.line ['\n']] := by
  refine ⟨overlong_check_false, ?_, ?_⟩
  · intro js fuel file n
    unfold eval_script
    split
    · simp
    · exact dispatch_loop_outcome js fuel _ n
  · have hrun : eval_script accepts_all 3 (some (List.replicate 2047 'a' ++ ['\n'])) =
        ⟨.eof, { script := [], buffer := ['\n'], line := 2,
                 calls := [Arg.line (List.replicate 2047 'a'), Arg.line ['\n']] }⟩ := by
      have hf : fgets readBufSz (List.replicate 2047 'a' ++ ['\n']) =
          some (List.replicate 2047 'a', ['\n']) := by
        have h1 : List.replicate 2047 'a' ++ ['\n'] =
            'a' :: (List.replicate 2046 'a' ++ ['\n']) := rfl
        have h2 : 'a' :: (List.replicate 2046 'a' ++ ['\n']) =
            List.replicate (readBufSz - 1) 'a' ++ ['\n'] := rfl
        rw [h1, fgets_cons, h2, fgets_chars_replicate, c_str_replicate]
        rfl
      have hb1 := loop_body_plain 2
        { script := ['\n'], buffer := List.replicate 2047 'a' }
        (strstr_replicate _ _ _ (by decide)) (strstr_replicate _ _ _ (by decide))
        (by simp only [opens_block, strstr_replicate _ _ _ (by decide : ('{' == 'a') = false)]; rfl)
        (by simp only [opens_block, strstr_replicate _ _ _ (by decide : ('[' == 'a') = false)]; rfl)
        rfl
      have hg : fgets readBufSz ['\n'] = some (['\n'], []) := by decide
      have hb2 := loop_body_plain 1
        { script := [], buffer := ['\n'], line := 1,
          calls := [Arg.line (List.replicate 2047 'a')] }
        (by decide) (by decide) (by decide) (by decide) rfl
      have s1 := dispatch_loop_step accepts_all 2 { script := List.replicate 2047 'a' ++ ['\n'] }
        (List.replicate 2047 'a') ['\n'] _ hf hb1
      have s2 := dispatch_loop_step accepts_all 1
        { script := ['\n'], buffer := List.replicate 2047 'a', line := 1,
          calls := [Arg.line (List.replicate 2047 'a')] } ['\n'] [] _ hg hb2
      have s3 := dispatch_loop_eof accepts_all 0
        { script := [], buffer := ['\n'], line := 2,
          calls := [Arg.line (List.replicate 2047 'a'), Arg.line ['\n']] } rfl
      exact s1.trans (s2.trans s3)
    rw [hrun]
    exact ⟨rfl, rfl⟩

/-- C7: if a call of `js->execute` raises, it is the last call of the run, and the
run has ended with the exception caught: `eval_script` has returned. -/
theorem abort_on_first_failure (js : Executor) (fuel : Nat) (file : Option (List Char))
    (pre : List Arg) (arg : Arg) (post : List Arg)
    (hcalls : (eval_script js fuel file).env.calls = pre ++ arg :: post)
    (hraise : js pre arg = true) :
    post = [] ∧ (eval_script js fuel file).outcome = .raised :=
  eval_script_fin (raising_traceInv js) (fun pre arg post h => by simp at h) fuel file
    pre arg post hcalls hraise

/-- The script `var a = 1;`, `foo(`, `var b = 2;` with an engine that raises on the
text `foo(`: the failing call is the last one, and the run has returned. -/
theorem abort_on_first_failure_witness :
    (eval_script (fun _ arg => arg.text == "foo(\n".toList) 5
        (some "var a = 1;\nfoo(\nvar b = 2;\n".toList)).env.calls =
      [Arg.line "var a = 1;\n".toList] ++ Arg.line "foo(\n".toList :: [] ∧
    ([] : List Arg) = [] ∧
    (eval_script (fun _ arg => arg.text == "foo(\n".toList) 5
        (some "var a = 1;\nfoo(\nvar b = 2;\n".toList)).outcome = .raised :=
  ⟨by decide,
   abort_on_first_failure (fun _ arg => arg.text == "foo(\n".toList) 5
     (some "var a = 1;\nfoo(\nvar b = 2;\n".toList)
     [Arg.line "var a = 1;\n".toList] (Arg.line "foo(\n".toList) [] (by decide) (by decide)⟩

/-! ## Clearing and reusing the buffer -/

theorem memset_take (data : List (Option Char)) (n : Nat) (h : n ≤ data.length) :
    (memset data n).take n = List.replicate n (some NUL) := by
  have hmin : min n data.length = n := Nat.min_eq_left h
  rw [memset, hmin]
  exact List.take_left' (by simp)

theorem memset_drop (data : List (Option Char)) (n : Nat) (h : n ≤ data.length) :
    (memset data n).drop n = data.drop n := by
  have hmin : min n data.length = n := Nat.min_eq_left h
  rw [memset, hmin]
  exact List.drop_left' (by simp)

theorem memset_zero (data : List (Option Char)) : memset data 0 = data := by
  simp [memset]

theorem memcpy_zero_take (data : List (Option Char)) (string : List Char) :
    (memcpy data 0 string).take string.length = string.map some := by
  simp only [memcpy, List.take_zero, List.nil_append, Nat.zero_add]
  exact List.take_left' (by simp)

theorem block_append_body_live_of_empty (block : block_s) (string : List Char)
    (h : block.size = 0) :
    (block_append_body block string).live = string.map some := by
  simp only [block_s.live, block_append_body, h, ne_eq, not_true_eq_false, if_false,
    Nat.zero_add]
  exact memcpy_zero_take _ _

/-- C11: for every buffer reached from the empty one by appends (and clears),
`block_clear` sets each of the first `size` bytes to zero, leaves the bytes
after them as they are, sets `size` to 0, and keeps `capacity`, `last_cap` and
the extent of the storage. -/
theorem block_clear_frame (ops : List BlockOp) :
    (block_clear (run_ops {} ops)).data.take (run_ops {} ops).size =
      List.replicate (run_ops {} ops).size (some NUL) ∧
    (block_clear (run_ops {} ops)).data.drop (run_ops {} ops).size =
      (run_ops {} ops).data.drop (run_ops {} ops).size ∧
    (block_clear (run_ops {} ops)).size = 0 ∧
    (block_clear (run_ops {} ops)).capacity = (run_ops {} ops).capacity ∧
    (block_clear (run_ops {} ops)).last_cap = (run_ops {} ops).last_cap ∧
    (block_clear (run_ops {} ops)).data.length = (run_ops {} ops).data.length := by
  have hs := run_ops_size_le ops {} (le_refl _)
  have hd := run_ops_data_length ops {} rfl (le_refl _)
  have hle : (run_ops {} ops).size ≤ (run_ops {} ops).data.length := by omega
  exact ⟨memset_take _ _ hle, memset_drop _ _ hle, rfl, rfl, rfl, memset_length _ _⟩

/-- C12: `block_clear` leaves a buffer of size 0 as it is, so clearing twice is
clearing once; and an append made just after a clear gives the size, the
capacity and the live bytes (the text itself) that the same append gives on a
buffer just made with the same capacity. -/
theorem clear_idempotent_and_reuse (b : block_s) (t : List Char) :
    block_clear { b with size := 0 } = { b with size := 0 } ∧
    block_clear (block_clear b) = block_clear b ∧
    (block_append_body (block_clear b) t).size =
      (block_append_body (fresh_block b.capacity) t).size ∧
    (block_append_body (block_clear b) t).capacity =
      (block_append_body (fresh_block b.capacity) t).capacity ∧
    (block_append_body (block_clear b) t).live =
      (block_append_body (fresh_block b.capacity) t).live ∧
    (block_append_body (block_clear b) t).live = t.map some := by
  refine ⟨?_, ?_, rfl, rfl, ?_, ?_⟩
  · simp [block_clear, memset_zero]
  · simp [block_clear, memset_zero]
  · rw [block_append_body_live_of_empty _ _ rfl, block_append_body_live_of_empty _ _ rfl]
  · exact block_append_body_live_of_empty _ _ rfl

/-- C16 (as stated, refuted): appending the empty string to a buffer just made,
of capacity 0, allocates one byte: the capacity becomes 1. -/
theorem block_append_empty_allocates :
    block_append (some {}) (some []) =
      some { last_cap := 0, capacity := 1, size := 0, data := [none] } ∧
    ((block_append (some {}) (some [])).map block_s.capacity) ≠
      (some ({} : block_s)).map block_s.capacity := by
  decide

/-- C16 (amended): `block_append` does nothing when the buffer pointer or the text
pointer is null; and with the empty string as text, on a buffer whose capacity is
not 0 (and whose size is within it), it leaves `capacity`, `size` and the stored
bytes as they are (only `last_cap` is set to the capacity). -/
theorem block_append_noop (b : block_s) (hc : b.capacity ≠ 0) (hs : b.size ≤ b.capacity) :
    (∀ block, block_append block none = block) ∧
    (∀ string, block_append none string = none) ∧
    block_append (some b) (some []) = some { b with last_cap := b.capacity } := by
  refine ⟨fun block => by cases block <;> rfl, fun string => by cases string <;> rfl, ?_⟩
  have hcap : append_capacity b 0 = b.capacity := by
    simp only [append_capacity, hc, if_false, Nat.add_zero]
    exact grow_of_not_lt _ _ (by omega)
  have hmem : ∀ (data : List (Option Char)) (n : Nat), memcpy data n [] = data := by
    intro data n
    simp [memcpy]
  simp only [block_append, block_append_body, List.length_nil, hcap, hc, if_false,
    Nat.lt_irrefl, hmem, ite_self, Nat.add_zero]

/-- The amended C16 at a buffer that holds `ab`. -/
theorem block_append_noop_witness :
    block_append (some (block_append_body {} "ab".toList)) (some []) =
      some { block_append_body {} "ab".toList with
             last_cap := (block_append_body {} "ab".toList).capacity } :=
  (block_append_noop (block_append_body {} "ab".toList) (by decide) (by decide)).2.2

/-! ## The comment filter -/

theorem strstr_isSome_iff (hay needle : List Char) :
    (strstr hay needle).isSome = true ↔ needle <:+: hay := by
  induction hay with
  | nil =>
    by_cases h : needle = []
    · simp [strstr, h]
    · simp [strstr, h]
  | cons c rest ih =>
    rw [strstr, List.infix_cons_iff]
    by_cases hp : needle.isPrefixOf (c :: rest) = true
    · simp only [hp, if_true, Option.isSome_some, true_iff]
      exact Or.inl (List.isPrefixOf_iff_prefix.mp hp)
    · have hnp : ¬ needle <+: c :: rest := fun h => hp (List.isPrefixOf_iff_prefix.mpr h)
      simp only [hp, Bool.false_eq_true, if_false, Option.isSome_map', ih, hnp, false_or]

theorem strstr_take (hay needle : List Char) (i : Nat) (h : strstr hay needle = some i) :
    hay.take i = truncate_at needle hay := by
  induction hay generalizing i with
  | nil => simp [truncate_at]
  | cons c rest ih =>
    rw [strstr] at h
    by_cases hp : needle.isPrefixOf (c :: rest) = true
    · simp only [hp, if_true, Option.some.injEq] at h
      subst h
      simp [truncate_at, List.isPrefixOf_iff_prefix.mp hp]
    · have hnp : ¬ needle <+: c :: rest := fun h => hp (List.isPrefixOf_iff_prefix.mpr h)
      simp only [hp, Bool.false_eq_true, if_false, Option.map_eq_some'] at h
      obtain ⟨j, hj, hi⟩ := h
      subst hi
      simp [truncate_at, hnp, ih j hj]

/-- The line is its truncation, then the marker, then a rest: the truncation
ends where an occurrence of the marker starts. -/
theorem truncate_at_append (marker line : List Char) (h : marker <:+: line) :
    ∃ rest, line = truncate_at marker line ++ (marker ++ rest) := by
  induction line with
  | nil =>
    have : marker = [] := List.infix_nil.mp h
    exact ⟨[], by simp [truncate_at, this]⟩
  | cons c tail ih =>
    by_cases hp : marker <+: c :: tail
    · have hp2 := hp
      obtain ⟨rest, hrest⟩ := hp2
      refine ⟨rest, ?_⟩
      simp only [truncate_at, hp, if_true, List.nil_append]
      exact hrest.symm
    · rcases List.infix_cons_iff.mp h with h1 | h1
      · exact absurd h1 hp
      · obtain ⟨rest, hrest⟩ := ih h1
        refine ⟨rest, ?_⟩
        simp only [truncate_at, hp, if_false, List.cons_append]
        rw [← hrest]

/-- C17: the comment filter of the dispatch loop is the step that the specification
describes: it changes the line buffer and the comment-mode flag as
`comment_filter_spec` says, and nothing else. -/
theorem comment_filter_refines (e : Env) :
    comment_filter e =
      { e with buffer := (comment_filter_spec e.buffer e.block_comment).1,
               block_comment := (comment_filter_spec e.buffer e.block_comment).2 } := by
  rcases e with ⟨script, buffer, block, bc, braces, line, calls⟩
  have hs := strstr_isSome_iff buffer "/**".toList
  have he := strstr_isSome_iff buffer "*/".toList
  have ht := strstr_take buffer "/**".toList
  simp only [comment_filter, comment_filter_spec]
  generalize "/**".toList = start_marker at hs ht ⊢
  generalize "*/".toList = end_marker at he ⊢
  cases hst : strstr buffer start_marker with
  | none =>
    have hno : ¬ start_marker <:+: buffer := by
      rw [← hs, hst]; simp
    cases hen : (strstr buffer end_marker).isSome <;> cases bc <;>
      simp [hno, ← he, hen]
  | some i =>
    have hyes : start_marker <:+: buffer := by
      rw [← hs, hst]; rfl
    have htake := ht i hst
    cases hen : (strstr buffer end_marker).isSome <;> cases bc <;>
      simp [hyes, ← he, hen, htake]

/-! ## Lines with both braces, comments inside blocks, lines that open both kinds -/

/-- C13 (as stated, refuted): the line `var a = {}; var b = [` holds an opening and a
closing brace and is read outside comment mode, but the bracket check fires on
it: it is not forwarded as a unit of its own, `block_append` is called and the
buffer grows to capacity 47. The line `f({}); /** note` is truncated at the
comment marker and not forwarded at all. -/
theorem balanced_line_not_forwarded :
    forwarded accepts_all 5 "var a = \x7b\x7d; var b = [\n1];\n" =
      [Arg.block ("var a = \x7b\x7d; var b = [1]; ".toList.map some ++ List.replicate 22 none),
       Arg.line []] ∧
    (run accepts_all 5 "var a = \x7b\x7d; var b = [\n1];\n").env.block.capacity = 47 ∧
    (run accepts_all 5 "f(\x7b\x7d); /** note\n").outcome = .eof ∧
    forwarded accepts_all 5 "f(\x7b\x7d); /** note\n" = [] := by
  decide

/-- C13 (amended): a line that holds an opening and a closing brace, read outside
comment mode, that holds no start marker `/**` and on which the bracket check
does not fire (no `[` without a `]`), is passed to `js->execute` as it is, at
once; the block buffer and the depth counter are not touched. -/
theorem balanced_line_forwarded (js : Executor) (fuel : Nat) (e : Env)
    (hmode : e.block_comment = false)
    (hopen : (strstr e.buffer ['{']).isSome = true)
    (hclose : (strstr e.buffer ['}']).isSome = true)
    (hstart : strstr e.buffer "/**".toList = none)
    (hbracket : opens_block '[' ']' e.buffer = false) :
    loop_body js fuel e = execute js (.line e.buffer) { e with line := e.line + 1 } := by
  rcases e with ⟨script, buffer, block, bc, braces, line, calls⟩
  simp only at hmode hopen hclose hstart hbracket
  subst hmode
  have hbrace : opens_block '{' '}' buffer = false := by
    rw [opens_block, hopen]
    cases hc : strstr buffer ['}'] with
    | none => rw [hc] at hclose; cases hclose
    | some i => rfl
  simp only [loop_body, overlong_check_false, Bool.false_eq_true, if_false, comment_filter,
    hstart, Bool.and_false, block_check, hbrace, hbracket, dispatch, Bool.not_false, if_true]

/-- The amended C13 at the line `function myfunc(x, y) { return x + y; }`. -/
theorem balanced_line_forwarded_witness :
    loop_body accepts_all 3
        { script := [], buffer := "function myfunc(x, y) \x7b return x + y; \x7d\n".toList } =
      .ok { script := [], buffer := "function myfunc(x, y) \x7b return x + y; \x7d\n".toList,
            line := 1,
            calls := [Arg.line "function myfunc(x, y) \x7b return x + y; \x7d\n".toList] } :=
  (balanced_line_forwarded accepts_all 3
    { script := [], buffer := "function myfunc(x, y) \x7b return x + y; \x7d\n".toList }
    rfl (by decide) (by decide) (by decide) (by decide)).trans rfl

/-- C14 (code as it is): in the script `function f() {`, `/** doc */`, `return 1;`, `}`
the comment line is read by the `fgets` of the accumulation loop and never
passes the comment filter: the block passed to `js->execute` holds the start
marker and the comment text. -/
theorem comment_inside_block_forwarded :
    (run accepts_all 6 "function f() \x7b\n/** doc */\nreturn 1;\n\x7d\n").outcome = .eof ∧
    forwarded accepts_all 6 "function f() \x7b\n/** doc */\nreturn 1;\n\x7d\n" =
      [Arg.block ("function f() \x7b/** doc */ return 1; \x7d ".toList.map some ++
         List.replicate 30 none), Arg.line []] ∧
    strstr (Arg.block ("function f() \x7b/** doc */ return 1; \x7d ".toList.map some ++
         List.replicate 30 none)).text "/** doc */".toList = some 14 := by
  decide

theorem read_ahead_eof (e : Env) (h : e.script = []) : read_ahead e = e := by
  simp [read_ahead, h, fgets]

/-- At end of file, with a line buffer that leaves the counter as it is and a
counter that is not zero, the accumulation loop goes round for ever. -/
theorem accumulate_stuck (opener closer : Char) (fuel : Nat) (e : Env)
    (hs : e.script = []) (hscan : scan opener closer e.buffer e.braces = (e.braces, e.buffer))
    (hb : e.braces ≠ 0) : ∃ s, accumulate opener closer fuel e = .error s := by
  induction fuel generalizing e with
  | zero => exact ⟨_, rfl⟩
  | succ n ih =>
    unfold accumulate
    simp only [hscan, ne_eq, hb, not_false_eq_true, if_true]
    rw [read_ahead_eof _ (show ({ e with block := block_append_body e.block e.buffer } : Env).script
      = [] from hs)]
    exact ih _ hs hscan hb

/-- If the counter is not zero after a round and the loop does not end from the
state after that round, it does not end from the state before it. -/
theorem accumulate_round (opener closer : Char) (e : Env)
    (h1 : (scan opener closer e.buffer e.braces).1 ≠ 0)
    (h2 : ∀ n, ∃ s, accumulate opener closer n
      (read_ahead { e with braces := (scan opener closer e.buffer e.braces).1,
                           buffer := (scan opener closer e.buffer e.braces).2,
                           block := block_append_body e.block
                             (scan opener closer e.buffer e.braces).2 }) = .error s) :
    ∀ n, ∃ s, accumulate opener closer n e = .error s := by
  intro n
  cases n with
  | zero => exact ⟨_, rfl⟩
  | succ k =>
    unfold accumulate
    simp only [ne_eq, h1, not_false_eq_true, if_true]
    exact h2 k

/-- C15 (code as it is): on the script of the two lines `if (a) {` and `  b();`, whose
block is still open at the end of the file, the accumulation loop never ends:
whatever number of loop rounds is allowed, the run is still going, and nothing
has been passed to `js->execute`. -/
theorem unterminated_block_never_ends (fuel : Nat) :
    (run accepts_all fuel "if (a) \x7b\n  b();\n").outcome = .running ∧
    forwarded accepts_all fuel "if (a) \x7b\n  b();\n" = [] := by
  cases fuel with
  | zero => exact ⟨rfl, rfl⟩
  | succ n =>
    have hloop : ∀ k, ∃ s, accumulate '{' '}' k
        { script := "  b();\n".toList, buffer := "if (a) \x7b\n".toList, line := 1 } = .error s := by
      apply accumulate_round _ _ _ (by decide)
      apply accumulate_round _ _ _ (by decide)
      intro k
      exact accumulate_stuck _ _ k _ (by decide) (by decide) (by decide)
    obtain ⟨s, hs⟩ := hloop n
    obtain ⟨hout, hcalls⟩ := accumulate_error hs
    have hbody : loop_body accepts_all n
        { script := "  b();\n".toList, buffer := "if (a) \x7b\n".toList } = .error s := by
      have hcf : comment_filter
          { script := "  b();\n".toList, buffer := "if (a) \x7b\n".toList, line := 0 + 1 } =
          { script := "  b();\n".toList, buffer := "if (a) \x7b\n".toList, line := 1 } := by
        decide
      have hopen : opens_block '{' '}' "if (a) \x7b\n".toList = true := by decide
      simp only [loop_body, overlong_check_false, Bool.false_eq_true, if_false, hcf,
        block_check, hopen, if_true, hs]
    have hrun : run accepts_all (n + 1) "if (a) \x7b\n  b();\n" = s := by
      have hf : fgets readBufSz "if (a) \x7b\n  b();\n".toList =
          some ("if (a) \x7b\n".toList, "  b();\n".toList) := by decide
      simp only [run, eval_script, dispatch_loop, hf, hbody]
    rw [forwarded, hrun]
    exact ⟨hout, hcalls⟩

/-! ## The state between blocks -/

theorem dispatch_ok_frame {js : Executor} {e e1 : Env} (h : dispatch js e = .ok e1) :
    e1.braces = e.braces ∧ e1.block = e.block := by
  unfold dispatch at h
  split at h
  · rw [(execute_ok h).1]
    exact ⟨rfl, rfl⟩
  · injection h with h
    subst h
    exact ⟨rfl, rfl⟩

theorem block_check_ok_idle {js : Executor} {opener closer : Char} {fuel : Nat} {e e1 : Env}
    (h : block_check js opener closer fuel e = .ok e1)
    (hi : e.braces = 0 ∧ e.block.size = 0) :
    e1.braces = 0 ∧ e1.block.size = 0 := by
  unfold block_check at h
  split at h
  · split at h
    · cases h
    · rename_i ea hea
      split at h
      · cases h
      · rename_i eb heb
        injection h with h
        subst h
        rw [(execute_ok heb).1]
        exact ⟨(accumulate_ok hea).2.1, rfl⟩
  · injection h with h
    subst h
    exact hi

theorem comment_filter_idle (e : Env) :
    (comment_filter e).braces = e.braces ∧ (comment_filter e).block = e.block := by
  unfold comment_filter
  split <;> (try split) <;> (try split) <;> exact ⟨rfl, rfl⟩

theorem loop_body_ok_idle {js : Executor} {fuel : Nat} {e e1 : Env}
    (h : loop_body js fuel e = .ok e1) (hi : e.braces = 0 ∧ e.block.size = 0) :
    e1.braces = 0 ∧ e1.block.size = 0 := by
  unfold loop_body at h
  simp only [overlong_check_false, Bool.false_eq_true, if_false] at h
  have h0 : (comment_filter { e with line := e.line + 1 }).braces = 0 ∧
      (comment_filter { e with line := e.line + 1 }).block.size = 0 := by
    obtain ⟨hb, hk⟩ := comment_filter_idle { e with line := e.line + 1 }
    rw [hb, hk]
    exact hi
  split at h
  · cases h
  · rename_i ea hea
    have h1 := block_check_ok_idle hea h0
    split at h
    · cases h
    · rename_i eb heb
      have h2 := block_check_ok_idle heb h1
      obtain ⟨hb, hk⟩ := dispatch_ok_frame h
      rw [hb, hk]
      exact h2

theorem atLoopHead_idle {js : Executor} {script : List Char} {e : Env}
    (h : AtLoopHead js script e) : e.braces = 0 ∧ e.block.size = 0 := by
  induction h with
  | start => exact ⟨rfl, rfl⟩
  | next fuel e buffer rest e1 _ _ hbody ih => exact loop_body_ok_idle hbody ih

/-- C20: at the start of every iteration of the dispatch loop the counter `braces` is
0 and the size of the block buffer is 0; the same holds, for every line read, of
the state after the comment filter, in which the brace loop is entered if the
brace check fires (whether or not that loop ever ends); and it holds of every
state that the brace check returns, in which the bracket loop is entered if the
bracket check fires. -/
theorem accumulation_state_invariant (js : Executor) (script : List Char) (e : Env)
    (h : AtLoopHead js script e) (fuel : Nat) (buffer rest : List Char) :
    (e.braces = 0 ∧ e.block.size = 0) ∧
    ((comment_filter { e with buffer := buffer, script := rest, line := e.line + 1 }).braces = 0 ∧
     (comment_filter { e with buffer := buffer, script := rest, line := e.line + 1 }).block.size
       = 0) ∧
    (∀ e1, block_check js '{' '}' fuel
        (comment_filter { e with buffer := buffer, script := rest, line := e.line + 1 }) = .ok e1 →
      e1.braces = 0 ∧ e1.block.size = 0) := by
  have hi := atLoopHead_idle h
  have h0 : (comment_filter { e with buffer := buffer, script := rest,
                                     line := e.line + 1 }).braces = 0 ∧
      (comment_filter { e with buffer := buffer, script := rest,
                               line := e.line + 1 }).block.size = 0 := by
    obtain ⟨hb, hk⟩ := comment_filter_idle
      { e with buffer := buffer, script := rest, line := e.line + 1 }
    rw [hb, hk]
    exact hi
  exact ⟨hi, h0, fun e1 hcheck => block_check_ok_idle hcheck h0⟩

/-! ## The offset of the copy -/

theorem realloc_take (data : List (Option Char)) (capacity n : Nat)
    (h1 : n ≤ data.length) (h2 : n ≤ capacity) :
    (realloc data capacity).take n = data.take n := by
  rw [realloc, List.take_append_of_le_length (by rw [List.length_take]; omega), List.take_take]
  congr 1
  omega

theorem memcpy_take (data : List (Option Char)) (offset : Nat) (string : List Char)
    (h : offset ≤ data.length) :
    (memcpy data offset string).take offset = data.take offset := by
  rw [memcpy, List.append_assoc]
  exact List.take_left' (by rw [List.length_take]; omega)

theorem memcpy_drop_take (data : List (Option Char)) (offset : Nat) (string : List Char)
    (h : offset ≤ data.length) :
    ((memcpy data offset string).drop offset).take string.length = string.map some := by
  rw [memcpy, List.append_assoc, List.drop_left' (by rw [List.length_take]; omega)]
  exact List.take_left' (by simp)

/-- The storage in which `block_append` copies, after the growth of the capacity. -/
theorem block_append_body_data (block : block_s) (string : List Char) (hc : block.capacity ≠ 0) :
    (block_append_body block string).data =
      memcpy (if block.capacity < append_capacity block string.length then
                realloc block.data (append_capacity block string.length) else block.data)
        (block.size - 1) string := by
  simp only [block_append_body, hc, if_false]
  by_cases hs : block.size ≠ 0
  · simp only [hs, ne_eq, not_false_eq_true, if_true]
  · have h0 : block.size = 0 := by omega
    simp [h0]

theorem append_capacity_ge_capacity (block : block_s) (length : Nat) (hc : block.capacity ≠ 0) :
    block.capacity ≤ append_capacity block length := by
  have := grow_ge_start (if block.capacity = 0 then length + 1 else block.capacity)
    (block.size + length)
  simpa [append_capacity, hc] using this

/-- The bytes before offset `size - 1` are kept and the text is found from that
offset on, in a buffer whose storage has `capacity` bytes. -/
theorem block_append_body_copy (block : block_s) (string : List Char)
    (hd : block.data.length = block.capacity) (hs : block.size ≤ block.capacity)
    (hsize : block.size ≠ 0) :
    (block_append_body block string).data.take (block.size - 1) =
      block.data.take (block.size - 1) ∧
    ((block_append_body block string).data.drop (block.size - 1)).take string.length =
      string.map some := by
  have hc : block.capacity ≠ 0 := by omega
  have hge := append_capacity_ge_capacity block string.length hc
  rw [block_append_body_data block string hc]
  split
  · have hlen : block.size - 1 ≤
        (realloc block.data (append_capacity block string.length)).length := by
      rw [realloc_length]; omega
    exact ⟨by rw [memcpy_take _ _ _ hlen, realloc_take _ _ _ (by omega) (by omega)],
      memcpy_drop_take _ _ _ hlen⟩
  · exact ⟨memcpy_take _ _ _ (by omega), memcpy_drop_take _ _ _ (by omega)⟩

theorem holds_first_append (s : List Char) :
    HoldsThenUnwritten (block_append_body {} s) s ∧ (block_append_body {} s).size = s.length ∧
    (block_append_body {} s).capacity = s.length + 1 := by
  have hcap : append_capacity {} s.length = s.length + 1 := by
    simp only [append_capacity, if_true, Nat.zero_add]
    exact grow_of_not_lt _ _ (by omega)
  refine ⟨⟨?_, ?_⟩, by simp, by simp [hcap]⟩
  · simp [hcap]
  · simp only [block_append_body, hcap, if_true, Nat.zero_lt_succ, malloc, realloc,
      ne_eq, not_true_eq_false, if_false, memcpy, List.take_zero, List.nil_append, Nat.zero_add,
      List.length_replicate, Nat.sub_self, List.replicate_zero, List.append_nil,
      List.take_replicate, Nat.min_self, List.drop_replicate]
    simp

theorem holds_append (block : block_s) (content s : List Char)
    (hH : HoldsThenUnwritten block content) (hsize : block.size ≠ 0)
    (hs : block.size ≤ block.capacity) (hlo : block.size - 1 ≤ content.length)
    (hhi : content.length ≤ block.size - 1 + s.length) :
    HoldsThenUnwritten (block_append_body block s) (content.take (block.size - 1) ++ s) := by
  obtain ⟨hcl, hdata⟩ := hH
  have hc : block.capacity ≠ 0 := by omega
  have hge := append_capacity_ge_capacity block s.length hc
  have hneed := append_capacity_ge block s.length
  have hdl : block.data.length = block.capacity := by
    rw [hdata]; simp; omega
  have hd1 : (if block.capacity < append_capacity block s.length then
        realloc block.data (append_capacity block s.length) else block.data) =
      content.map some ++
        List.replicate (append_capacity block s.length - content.length) none := by
    split
    · rw [realloc, List.take_of_length_le (by omega), hdl, hdata, List.append_assoc,
        List.append_replicate_replicate]
      congr 2
      omega
    · have : append_capacity block s.length = block.capacity := by omega
      rw [this, hdata]
  have hlen : (content.take (block.size - 1) ++ s).length = block.size - 1 + s.length := by
    rw [List.length_append, List.length_take]; omega
  refine ⟨by rw [hlen, block_append_body_capacity]; omega, ?_⟩
  rw [block_append_body_data block s hc, hd1, hlen, block_append_body_capacity]
  simp only [memcpy]
  rw [List.take_append_of_le_length (by rw [List.length_map]; exact hlo),
    List.drop_append_eq_append_drop, List.drop_eq_nil_of_le (by rw [List.length_map]; omega),
    List.nil_append, List.drop_replicate, List.length_map, List.map_append, List.map_take]
  congr 2
  omega

theorem holds_append_all (rest : List (List Char)) (block : block_s) (content : List Char)
    (hH : HoldsThenUnwritten block content) (hsize : block.size = content.length + 1)
    (hs : block.size ≤ block.capacity) :
    HoldsThenUnwritten (append_all block rest) (content ++ concat_all rest) ∧
    (append_all block rest).size = (content ++ concat_all rest).length + 1 ∧
    (append_all block rest).size ≤ (append_all block rest).capacity := by
  induction rest generalizing block content with
  | nil => simpa [append_all, concat_all] using ⟨hH, hsize, hs⟩
  | cons s tail ih =>
    have hstep := holds_append block content s hH (by omega) hs (by omega) (by omega)
    have htake : content.take (block.size - 1) = content :=
      List.take_of_length_le (by omega)
    rw [htake] at hstep
    have := ih (block_append_body block s) (content ++ s) hstep
      (by simp [hsize]; omega) (append_capacity_ge block s.length)
    simpa [append_all, concat_all, List.append_assoc] using this

/-- C18: in a buffer reached from the empty one whose size is not 0, an append keeps
the bytes before offset `size - 1` and puts the text from that offset on, over
the last live byte; so after the non-empty strings `s1`, `s2` and any further
strings have been appended to the empty buffer, `size` is the total length, the
first `size - 1` bytes are `s1` without its last character followed by the
other strings, and the byte at index `size - 1` was never written. -/
theorem append_copy_offset (ops : List BlockOp) (s : List Char) (s1 s2 : List Char)
    (rest : List (List Char)) (hsize : (run_ops {} ops).size ≠ 0)
    (hs1 : s1 ≠ []) (hs2 : s2 ≠ []) :
    ((block_append_body (run_ops {} ops) s).data.take ((run_ops {} ops).size - 1) =
        (run_ops {} ops).data.take ((run_ops {} ops).size - 1) ∧
      ((block_append_body (run_ops {} ops) s).data.drop ((run_ops {} ops).size - 1)).take
        s.length = s.map some) ∧
    (append_all {} (s1 :: s2 :: rest)).size = total_length (s1 :: s2 :: rest) ∧
    (append_all {} (s1 :: s2 :: rest)).data.take ((append_all {} (s1 :: s2 :: rest)).size - 1) =
      (s1.dropLast ++ s2 ++ concat_all rest).map some ∧
    (append_all {} (s1 :: s2 :: rest)).data[(append_all {} (s1 :: s2 :: rest)).size - 1]? =
      some none := by
  refine ⟨block_append_body_copy _ s (run_ops_data_length ops {} rfl (le_refl _))
    (run_ops_size_le ops {} (le_refl _)) hsize, ?_, ?_⟩
  · simpa using append_all_size (s1 :: s2 :: rest) {}
  · obtain ⟨h1, h1s, h1c⟩ := holds_first_append s1
    have hl1 : s1.length ≠ 0 := fun h => hs1 (List.length_eq_zero.mp h)
    have hl2 : s2.length ≠ 0 := fun h => hs2 (List.length_eq_zero.mp h)
    have h2 := holds_append (block_append_body {} s1) s1 s2 h1 (by omega) (by omega)
      (by omega) (by omega)
    rw [h1s, ← List.dropLast_eq_take] at h2
    have hlen : (s1.dropLast ++ s2).length + 1 = s1.length + s2.length := by
      rw [List.length_append, List.length_dropLast]; omega
    obtain ⟨⟨hcl, hdata⟩, hsz, hcap⟩ := holds_append_all rest
      (block_append_body (block_append_body {} s1) s2) (s1.dropLast ++ s2) h2
      (by rw [block_append_body_size, h1s, hlen])
      (append_capacity_ge _ _)
    have hall : append_all {} (s1 :: s2 :: rest) =
        append_all (block_append_body (block_append_body {} s1) s2) rest := rfl
    rw [hall, hsz, Nat.add_sub_cancel]
    constructor
    · rw [hdata]
      exact List.take_left' (by simp)
    · rw [hdata, List.getElem?_append_right (by simp), List.length_map, Nat.sub_self]
      exact List.getElem?_replicate_of_lt (by omega)

/-- C18 at an input: `cd` appended to the buffer that holds `ab`, and the three
strings `ab`, `cd`, `ef` appended to the empty buffer. -/
theorem append_copy_offset_witness :
    (run_ops {} [BlockOp.append "ab".toList]).size ≠ 0 ∧
    ((block_append_body (run_ops {} [BlockOp.append "ab".toList]) "cd".toList).data.drop 1).take 2 =
      "cd".toList.map some ∧
    (append_all {} ["ab".toList, "cd".toList, "ef".toList]).size = 6 ∧
    (append_all {} ["ab".toList, "cd".toList, "ef".toList]).data.take 5 =
      "acdef".toList.map some ∧
    (append_all {} ["ab".toList, "cd".toList, "ef".toList]).data[5]? = some none :=
  ⟨by decide,
   (append_copy_offset [BlockOp.append "ab".toList] "cd".toList "ab".toList "cd".toList
     ["ef".toList] (by decide) (by decide) (by decide)).1.2,
   (append_copy_offset [BlockOp.append "ab".toList] "cd".toList "ab".toList "cd".toList
     ["ef".toList] (by decide) (by decide) (by decide)).2.1,
   (append_copy_offset [BlockOp.append "ab".toList] "cd".toList "ab".toList "cd".toList
     ["ef".toList] (by decide) (by decide) (by decide)).2.2.1,
   (append_copy_offset [BlockOp.append "ab".toList] "cd".toList "ab".toList "cd".toList
     ["ef".toList] (by decide) (by decide) (by decide)).2.2.2⟩

/-- C20 at two inputs. The script `a`, `{`, `}`, `b`, at the start of the second
iteration: the line `{` fires the brace check, and the state that the check
returns has counter 0 and size 0. The script `if (a) {`, `  b();`, at the start
of the first iteration: the brace loop is entered with counter 0 and size 0,
and never ends. -/
theorem accumulation_state_invariant_witness :
    (AtLoopHead accepts_all "a\n\x7b\n\x7d\nb\n".toList
      { script := "\x7b\n\x7d\nb\n".toList, buffer := "a\n".toList, line := 1,
        calls := [Arg.line "a\n".toList] } ∧
     block_check accepts_all '{' '}' 3
        (comment_filter { script := "\x7d\nb\n".toList, buffer := "\x7b\n".toList, line := 2,
                          calls := [Arg.line "a\n".toList] }) =
       .ok { script := [], buffer := [], line := 2,
             block := { last_cap := 3, capacity := 7, size := 0,
                        data := List.replicate 4 (some NUL) ++ List.replicate 3 none },
             calls := [Arg.line "a\n".toList,
                       Arg.block [some '{', some '}', some ' ', none, none, none, none]] } ∧
     ((0 : Nat) = 0 ∧
      ({ last_cap := 3, capacity := 7, size := 0,
         data := List.replicate 4 (some NUL) ++ List.replicate 3 none } : block_s).size = 0)) ∧
    (AtLoopHead accepts_all "if (a) \x7b\n  b();\n".toList
      { script := "if (a) \x7b\n  b();\n".toList } ∧
     opens_block '{' '}' (comment_filter
       { script := "  b();\n".toList, buffer := "if (a) \x7b\n".toList, line := 1 }).buffer = true ∧
     (comment_filter
       { script := "  b();\n".toList, buffer := "if (a) \x7b\n".toList, line := 1 }).braces = 0 ∧
     (comment_filter
       { script := "  b();\n".toList, buffer := "if (a) \x7b\n".toList, line := 1 }).block.size = 0) :=
  ⟨⟨AtLoopHead.next 3 { script := "a\n\x7b\n\x7d\nb\n".toList } "a\n".toList
      "\x7b\n\x7d\nb\n".toList _ AtLoopHead.start rfl rfl,
    rfl,
    (accumulation_state_invariant accepts_all "a\n\x7b\n\x7d\nb\n".toList
      { script := "\x7b\n\x7d\nb\n".toList, buffer := "a\n".toList, line := 1,
        calls := [Arg.line "a\n".toList] }
      (AtLoopHead.next 3 { script := "a\n\x7b\n\x7d\nb\n".toList } "a\n".toList
        "\x7b\n\x7d\nb\n".toList _ AtLoopHead.start rfl rfl)
      3 "\x7b\n".toList "\x7d\nb\n".toList).2.2
      { script := [], buffer := [], line := 2,
        block := { last_cap := 3, capacity := 7, size := 0,
                   data := List.replicate 4 (some NUL) ++ List.replicate 3 none },
        calls := [Arg.line "a\n".toList,
                  Arg.block [some '{', some '}', some ' ', none, none, none, none]] }
      rfl⟩,
   ⟨AtLoopHead.start, by decide,
    (accumulation_state_invariant accepts_all "if (a) \x7b\n  b();\n".toList
      { script := "if (a) \x7b\n  b();\n".toList } AtLoopHead.start
      3 "if (a) \x7b\n".toList "  b();\n".toList).2.1⟩⟩

/-! ## The lines of a block and their tokens -/

theorem scan_snd (opener closer : Char) (line : List Char) (braces : Nat) :
    (scan opener closer line braces).2 = blank line := by
  induction line generalizing braces with
  | nil => rfl
  | cons c rest ih => simp only [scan, blank, List.map_cons, ih]

/-- The counter after a line: it has gone up by the opening tokens of the line
and down by its closing tokens, modulo `2 ^ 64`. -/
theorem scan_fst (opener closer : Char) (hne : opener ≠ closer) (line : List Char)
    (braces : Nat) :
    ((scan opener closer line braces).1 + line.count closer) % 2 ^ 64 =
      (braces + line.count opener) % 2 ^ 64 := by
  induction line generalizing braces with
  | nil => simp [scan]
  | cons x rest ih =>
    have hstep : (scan opener closer (x :: rest) braces).1 =
        (scan opener closer rest
          (if x = closer then
            ((if x = opener then (braces + 1) % 2 ^ 64 else braces) + (2 ^ 64 - 1)) % 2 ^ 64
           else (if x = opener then (braces + 1) % 2 ^ 64 else braces))).1 := rfl
    rw [hstep, List.count_cons, List.count_cons]
    by_cases ho : x = opener
    · have hc : ¬ x = closer := fun h => hne (ho.symm.trans h)
      have hbo : (x == opener) = true := by simp [ho]
      have hbc : (x == closer) = false := by simp [hc]
      rw [if_neg hc, if_pos ho, hbo, hbc]
      have := ih ((braces + 1) % 2 ^ 64)
      simp only [if_true, Bool.false_eq_true, if_false, Nat.add_zero]
      omega
    · have hbo : (x == opener) = false := by simp [ho]
      by_cases hc : x = closer
      · have hbc : (x == closer) = true := by simp [hc]
        rw [if_pos hc, if_neg ho, hbo, hbc]
        have := ih ((braces + (2 ^ 64 - 1)) % 2 ^ 64)
        simp only [if_true, Bool.false_eq_true, if_false, Nat.add_zero]
        omega
      · have hbc : (x == closer) = false := by simp [hc]
        rw [if_neg hc, if_neg ho, hbo, hbc]
        simp only [Bool.false_eq_true, if_false, Nat.add_zero]
        exact ih braces

theorem concat_all_cons_count (c : Char) (line : List Char) (rest : List (List Char)) :
    (concat_all (line :: rest)).count c = line.count c + (concat_all rest).count c := by
  simp [concat_all, List.count_append]

theorem accumulated_succ (opener closer : Char) (fuel : Nat) (e : Env) :
    accumulated opener closer (fuel + 1) e =
      e.buffer :: (if (scan opener closer e.buffer e.braces).1 ≠ 0 then
        accumulated opener closer fuel
          (read_ahead { e with braces := (scan opener closer e.buffer e.braces).1,
                               buffer := (scan opener closer e.buffer e.braces).2,
                               block := block_append_body e.block
                                 (scan opener closer e.buffer e.braces).2 })
        else []) := rfl

/-- An accumulation loop that ends has appended the lines of `accumulated`,
blanked, to the buffer; the first of them is the line buffer at entry; and the
counter at entry plus their opening tokens is their closing tokens, modulo
`2 ^ 64`. -/
theorem accumulate_ok_lines {opener closer : Char} (hne : opener ≠ closer) {fuel : Nat}
    {e e1 : Env} (h : accumulate opener closer fuel e = .ok e1) :
    e1.block = append_all e.block ((accumulated opener closer fuel e).map blank) ∧
    (e.braces + (concat_all (accumulated opener closer fuel e)).count opener) % 2 ^ 64 =
      (concat_all (accumulated opener closer fuel e)).count closer % 2 ^ 64 ∧
    ∃ more, accumulated opener closer fuel e = e.buffer :: more := by
  induction fuel generalizing e with
  | zero => simp [accumulate] at h
  | succ n ih =>
    unfold accumulate at h
    simp only at h
    have hs := scan_fst opener closer hne e.buffer e.braces
    by_cases hz : (scan opener closer e.buffer e.braces).1 ≠ 0
    · rw [if_pos hz] at h
      obtain ⟨hb, hcount, _⟩ := ih h
      rw [read_ahead_block] at hb
      rw [read_ahead_braces] at hcount
      dsimp only at hb hcount
      rw [accumulated_succ, if_pos hz]
      refine ⟨?_, ?_, ⟨_, rfl⟩⟩
      · rw [hb, List.map_cons, ← scan_snd opener closer e.buffer e.braces]
        rfl
      · rw [concat_all_cons_count, concat_all_cons_count]
        omega
    · rw [if_neg hz] at h
      injection h with h
      subst h
      have hz0 : (scan opener closer e.buffer e.braces).1 = 0 := by omega
      rw [accumulated_succ, if_neg hz]
      refine ⟨?_, ?_, ⟨_, rfl⟩⟩
      · rw [read_ahead_block, List.map_cons, ← scan_snd opener closer e.buffer e.braces]
        rfl
      · rw [concat_all_cons_count, concat_all_cons_count]
        simp only [concat_all, List.count_nil, Nat.add_zero]
        rw [hz0] at hs
        omega

/-- The calls of a step are all as the checks ensure, whether the step goes on
or leaves the loop. -/
def Checked : Except Stop Env → Prop
  | .ok e => ∀ arg ∈ e.calls, arg.checked
  | .error s => ∀ arg ∈ s.env.calls, arg.checked

theorem execute_checked (js : Executor) (arg : Arg) (e : Env)
    (hc : ∀ a ∈ e.calls, a.checked) (ha : arg.checked) : Checked (execute js arg e) := by
  have hall : ∀ a ∈ e.calls ++ [arg], a.checked := by
    intro a hmem
    rcases List.mem_append.mp hmem with h | h
    · exact hc a h
    · rw [List.mem_singleton.mp h]; exact ha
  unfold execute
  split <;> exact hall

theorem block_check_checked (js : Executor) (opener closer : Char)
    (hk : (opener = '{' ∧ closer = '}') ∨ (opener = '[' ∧ closer = ']'))
    (fuel : Nat) (e : Env) (hi : e.braces = 0 ∧ e.block.size = 0)
    (hc : ∀ a ∈ e.calls, a.checked) :
    Checked (block_check js opener closer fuel e) := by
  have hne : opener ≠ closer := by
    rcases hk with ⟨h1, h2⟩ | ⟨h1, h2⟩ <;> rw [h1, h2] <;> decide
  unfold block_check
  split
  · rename_i hopen
    split
    · rename_i s hs
      show ∀ arg ∈ s.env.calls, arg.checked
      rw [(accumulate_error hs).2]
      exact hc
    · rename_i ea hea
      obtain ⟨hb, hcount, more, hmore⟩ := accumulate_ok_lines hne hea
      have hflush : FlushedBlock ea.block.data := by
        refine ⟨opener, closer, e.buffer, more, e.block, hk, hopen, hi.2, ?_, ?_⟩
        · rw [hb, hmore]
        · rw [hmore, hi.1, Nat.zero_add] at hcount
          exact hcount
      have hp := execute_checked js (.block ea.block.data) ea
        (by rw [(accumulate_ok hea).1]; exact hc) hflush
      split
      · rename_i s hs
        rw [hs] at hp
        exact hp
      · rename_i eb heb
        rw [heb] at hp
        exact hp
  · exact hc

theorem comment_filter_calls (e : Env) : (comment_filter e).calls = e.calls := by
  unfold comment_filter
  split <;> (try split) <;> (try split) <;> rfl

theorem loop_body_checked (js : Executor) (fuel : Nat) (e : Env)
    (hi : e.braces = 0 ∧ e.block.size = 0) (hc : ∀ a ∈ e.calls, a.checked) :
    Checked (loop_body js fuel e) := by
  unfold loop_body
  simp only [overlong_check_false, Bool.false_eq_true, if_false]
  have h0 : (comment_filter { e with line := e.line + 1 }).braces = 0 ∧
      (comment_filter { e with line := e.line + 1 }).block.size = 0 := by
    obtain ⟨hb, hk⟩ := comment_filter_idle { e with line := e.line + 1 }
    rw [hb, hk]
    exact hi
  have hc0 : ∀ a ∈ (comment_filter { e with line := e.line + 1 }).calls, a.checked := by
    rw [comment_filter_calls]
    exact hc
  have h1 := block_check_checked js '{' '}' (Or.inl ⟨rfl, rfl⟩) fuel _ h0 hc0
  split
  · rename_i s hs
    rw [hs] at h1
    exact h1
  · rename_i ea hea
    rw [hea] at h1
    have hb1 := block_check_ok_buffer hea
    have hi1 := block_check_ok_idle hea h0
    have h2 := block_check_checked js '[' ']' (Or.inr ⟨rfl, rfl⟩) fuel ea hi1 h1
    split
    · rename_i s hs
      rw [hs] at h2
      exact h2
    · rename_i eb heb
      rw [heb] at h2
      have hb2 := block_check_ok_buffer heb
      unfold dispatch
      split
      · apply execute_checked js _ _ h2
        show opens_block '{' '}' eb.buffer = false ∧ opens_block '[' ']' eb.buffer = false
        rcases hb2 with hnil | ⟨heq, hno2⟩
        · rw [hnil]
          exact ⟨opens_block_nil _ _, opens_block_nil _ _⟩
        · subst heq
          refine ⟨?_, hno2⟩
          rcases hb1 with hnil | ⟨heq1, hno1⟩
          · rw [hnil]
            exact opens_block_nil _ _
          · rw [heq1]
            exact hno1
      · exact h2

theorem dispatch_loop_checked (js : Executor) (fuel : Nat) (e : Env)
    (hi : e.braces = 0 ∧ e.block.size = 0) (hc : ∀ a ∈ e.calls, a.checked) :
    ∀ arg ∈ (dispatch_loop js fuel e).env.calls, arg.checked := by
  induction fuel generalizing e with
  | zero => exact hc
  | succ n ih =>
    unfold dispatch_loop
    split
    · exact hc
    · rename_i buffer rest _
      have hp := loop_body_checked js n { e with buffer := buffer, script := rest } hi hc
      split
      · rename_i s hs
        rw [hs] at hp
        exact hp
      · rename_i e1 he1
        rw [he1] at hp
        exact ih e1 (loop_body_ok_idle he1 hi) hp

theorem eval_script_checked (js : Executor) (fuel : Nat) (file : Option (List Char)) :
    ∀ arg ∈ (eval_script js fuel file).env.calls, arg.checked := by
  unfold eval_script
  split
  · intro arg h
    cases h
  · exact dispatch_loop_checked js fuel _ ⟨rfl, rfl⟩ (fun a h => by cases h)

/-! ## The units of a run -/

/-- C1 (as stated, refuted): two scripts that are structurally complete as a whole.
Of `function f() { var a = {};` and `}` each line is forwarded as a unit of its
own, the first with an opening brace left unclosed, the second with a closing
brace that matches no opening brace of the unit. Of `var a = [ {`, `  x: 1 },`
and `  2 ];` the first two lines are forwarded as one block, when the brace
counter is back at zero: its bracket is left unclosed. -/
theorem unit_not_structurally_complete :
    (structurally_complete "function f() \x7b var a = \x7b\x7d;\n\x7d\n".toList = true ∧
     (run accepts_all 3 "function f() \x7b var a = \x7b\x7d;\n\x7d\n").outcome = .eof ∧
     forwarded accepts_all 3 "function f() \x7b var a = \x7b\x7d;\n\x7d\n" =
       [Arg.line "function f() \x7b var a = \x7b\x7d;\n".toList, Arg.line "\x7d\n".toList] ∧
     ∀ arg ∈ forwarded accepts_all 3 "function f() \x7b var a = \x7b\x7d;\n\x7d\n",
       structurally_complete arg.text = false) ∧
    (structurally_complete "var a = [ \x7b\n  x: 1 \x7d,\n  2 ];\n".toList = true ∧
     (run accepts_all 4 "var a = [ \x7b\n  x: 1 \x7d,\n  2 ];\n").outcome = .eof ∧
     forwarded accepts_all 4 "var a = [ \x7b\n  x: 1 \x7d,\n  2 ];\n" =
       [Arg.block ("var a = [ \x7b  x: 1 \x7d, ".toList.map some ++ List.replicate 6 none),
        Arg.line []] ∧
     (Arg.block ("var a = [ \x7b  x: 1 \x7d, ".toList.map some ++ List.replicate 6 none)).text =
       "var a = [ \x7b  x: 1 \x7d, ".toList ∧
     structurally_complete "var a = [ \x7b  x: 1 \x7d, ".toList = false) := by
  decide

/-- C1 (amended): in every run, every line buffer passed to `js->execute` is one
on which neither block check fires (no `{` without a `}` on the line, no `[`
without a `]`); and every block passed to `js->execute` is the storage of the
buffer, empty before, after `block_append` of the lines of one accumulation,
blanked, the first of which fires the brace check (or the bracket check), and
these lines hold as many closing as opening tokens of that kind, counted modulo
`2 ^ 64`. -/
theorem units_pass_checks (js : Executor) (fuel : Nat) (file : Option (List Char)) :
    (∀ buffer, Arg.line buffer ∈ (eval_script js fuel file).env.calls →
      opens_block '{' '}' buffer = false ∧ opens_block '[' ']' buffer = false) ∧
    (∀ data, Arg.block data ∈ (eval_script js fuel file).env.calls →
      ∃ (opener closer : Char) (first : List Char) (more : List (List Char)) (block : block_s),
        ((opener = '{' ∧ closer = '}') ∨ (opener = '[' ∧ closer = ']')) ∧
        opens_block opener closer first = true ∧
        block.size = 0 ∧
        data = (append_all block ((first :: more).map blank)).data ∧
        (concat_all (first :: more)).count opener % 2 ^ 64 =
          (concat_all (first :: more)).count closer % 2 ^ 64) :=
  ⟨fun buffer hmem => eval_script_checked js fuel file (Arg.line buffer) hmem,
   fun data hmem => eval_script_checked js fuel file (Arg.block data) hmem⟩

/-- The amended C1 at the script `var a = [ {`, `  x: 1 },`, `  2 ];`: the empty
line that is forwarded fires no check, and the block that is forwarded comes
from the lines of an accumulation that hold as many `}` as `{`. -/
theorem units_pass_checks_witness :
    Arg.line [] ∈ (eval_script accepts_all 4
        (some "var a = [ \x7b\n  x: 1 \x7d,\n  2 ];\n".toList)).env.calls ∧
    (opens_block '{' '}' [] = false ∧ opens_block '[' ']' [] = false) ∧
    Arg.block ("var a = [ \x7b  x: 1 \x7d, ".toList.map some ++ List.replicate 6 none) ∈
      (eval_script accepts_all 4
        (some "var a = [ \x7b\n  x: 1 \x7d,\n  2 ];\n".toList)).env.calls ∧
    FlushedBlock ("var a = [ \x7b  x: 1 \x7d, ".toList.map some ++ List.replicate 6 none) :=
  ⟨by decide,
   (units_pass_checks accepts_all 4
     (some "var a = [ \x7b\n  x: 1 \x7d,\n  2 ];\n".toList)).1 [] (by decide),
   by decide,
   (units_pass_checks accepts_all 4
     (some "var a = [ \x7b\n  x: 1 \x7d,\n  2 ];\n".toList)).2
     ("var a = [ \x7b  x: 1 \x7d, ".toList.map some ++ List.replicate 6 none) (by decide)⟩

end Script
